import Mathlib

/-!
Verification of the building-code markdown parser (`parse_building_code.py`).

This file gives a shallow embedding of the parser: Python strings are modelled
as `List Char`, the regular expressions used by the parser are modelled by a
small backtracking matcher (`mMatch`) that follows Python `re` semantics
(leftmost match, greedy/lazy preference, `re.MULTILINE` anchors, word
boundaries, `re.IGNORECASE` literals), and each parsing routine is translated
line by line from the source.  Theorems about the claims of the specification
follow the definitions.
-/

set_option maxRecDepth 4000

namespace BC

/-- Python strings are modelled as lists of characters. -/
abbrev Str := List Char

/-- Python `\s` / `str.strip` whitespace (ASCII range, as used by the parser). -/
def isWSc (c : Char) : Bool :=
  c = ' ' || c = '\t' || c = '\n' || c = '\r' || c = '\x0b' || c = '\x0c'

/-- ASCII digit test, Python `\d` on this input class. -/
def isDigitc (c : Char) : Bool := '0' ≤ c && c ≤ '9'

/-- ASCII letter test. -/
def isAlphac (c : Char) : Bool := ('a' ≤ c && c ≤ 'z') || ('A' ≤ c && c ≤ 'Z')

/-- Python `\w` (ASCII part): letters, digits, underscore. -/
def isWordc (c : Char) : Bool := isAlphac c || isDigitc c || c = '_'

/-- Python `str.lower` on a character (ASCII). -/
def lowc (c : Char) : Char := c.toLower

/-- Python `str.strip()`: remove leading and trailing whitespace. -/
def pyStrip (s : Str) : Str := ((s.dropWhile isWSc).reverse.dropWhile isWSc).reverse

/-- Python `str.rstrip(c)` for a single character `c`. -/
def pyRstrip (c : Char) (s : Str) : Str := (s.reverse.dropWhile (· = c)).reverse

/-- Python `str.split(sep)` for a one-character separator: split at every
occurrence, keeping empty pieces. -/
def pySplit (sep : Char) (s : Str) : List Str := s.splitOn sep

/-- Python `str.splitlines()` for texts whose only line break is `'\n'`:
split on newlines, without a final empty piece for a trailing newline. -/
def pySplitlines (s : Str) : List Str :=
  if s = [] then []
  else if s.getLast? = some '\n' then (pySplit '\n' s).dropLast
  else pySplit '\n' s

/-- Python slice `s[a:b]` for nonnegative bounds (indices clamp to the ends). -/
def pySlice (s : Str) (a b : Nat) : Str := (s.take b).drop a

/-- Python `str.rfind(c)`: index of the last occurrence of `c`, if any. -/
def pyRfindChar (c : Char) : Str → Option Nat
  | [] => none
  | a :: t =>
    match pyRfindChar c t with
    | some k => some (k + 1)
    | none => if a = c then some 0 else none

/-- Python substring containment `needle in hay`. -/
def substrOf (needle : Str) : Str → Bool
  | [] => needle.isEmpty
  | c :: t => needle.isPrefixOf (c :: t) || substrOf needle t

/-- Append a trailing dot to a reference token unless it already ends in one
(the parser's normalization step). -/
def normDot (s : Str) : Str := if s.getLast? = some '.' then s else s ++ ['.']

/-- Decimal digit character of a value below ten. -/
def digitChar (n : Nat) : Char :=
  match n with
  | 0 => '0' | 1 => '1' | 2 => '2' | 3 => '3' | 4 => '4'
  | 5 => '5' | 6 => '6' | 7 => '7' | 8 => '8' | _ => '9'

/-- Numeric value of a decimal digit character. -/
def digitVal (c : Char) : Nat :=
  match c with
  | '0' => 0 | '1' => 1 | '2' => 2 | '3' => 3 | '4' => 4
  | '5' => 5 | '6' => 6 | '7' => 7 | '8' => 8 | _ => 9

/-- Decimal digits of a positive number, most significant first (fuelled). -/
def natReprAux : Nat → Nat → Str
  | 0, _ => []
  | _ + 1, 0 => []
  | fuel + 1, n + 1 => natReprAux fuel ((n + 1) / 10) ++ [digitChar ((n + 1) % 10)]

/-- Python `str(n)` for a natural number: its decimal representation. -/
def natRepr (n : Nat) : Str := if n = 0 then ['0'] else natReprAux n n

/-- Reads a decimal digit string back to a number (used to prove `natRepr`
injective). -/
def readNat (s : Str) : Nat := s.foldl (fun a c => a * 10 + digitVal c) 0

/-- Lemmas about `natRepr`. -/
theorem readNat_append (l₁ l₂ : Str) :
    readNat (l₁ ++ l₂) = l₂.foldl (fun a c => a * 10 + digitVal c) (readNat l₁) := by
  simp [readNat, List.foldl_append]

theorem digitVal_digitChar {n : Nat} (h : n < 10) : digitVal (digitChar n) = n := by
  interval_cases n <;> rfl

theorem natReprAux_zero (fuel : Nat) : natReprAux fuel 0 = [] := by
  cases fuel <;> rfl

theorem readNat_natReprAux (fuel n : Nat) (h1 : 0 < n) (h2 : n ≤ fuel) :
    readNat (natReprAux fuel n) = n := by
  induction fuel generalizing n with
  | zero => omega
  | succ f ih =>
    match n, h1 with
    | n + 1, _ =>
      rw [natReprAux]
      rw [readNat_append, List.foldl_cons, List.foldl_nil]
      rcases Nat.eq_zero_or_pos ((n + 1) / 10) with hz | hp
      · rw [hz, natReprAux_zero]
        have : readNat [] = 0 := rfl
        rw [this]
        rw [digitVal_digitChar (Nat.mod_lt _ (by omega))]
        omega
      · rw [ih _ hp (by omega)]
        rw [digitVal_digitChar (Nat.mod_lt _ (by omega))]
        omega

theorem readNat_natRepr (n : Nat) : readNat (natRepr n) = n := by
  unfold natRepr
  split
  · simp_all [readNat, digitVal]
  · exact readNat_natReprAux n n (by omega) le_rfl

theorem natRepr_injective : Function.Injective natRepr := by
  intro a b h
  have := readNat_natRepr a
  rw [h, readNat_natRepr] at this
  omega

/-!
A small regular-expression matcher with Python `re` semantics, covering the
constructs used by the parser's patterns: literals (case sensitive and
insensitive), character classes, concatenation, alternation tried left to
right, greedy `*`, counted repetition `{lo,hi}` (greedy or lazy), the
anchors `^` (with and without `re.MULTILINE`) and `$`, word boundaries `\b`,
and up to two capture groups.
-/

/-- Regular expression syntax. -/
inductive RE where
  | eps : RE
  | anyc : RE
  | chr : Char → RE
  | chrCI : Char → RE
  | cls : (Char → Bool) → RE
  | seq : RE → RE → RE
  | alt : RE → RE → RE
  | star : RE → RE
  | rep : RE → Nat → Nat → Bool → RE
  | bos : RE
  | bol : RE
  | eosN : RE
  | eolM : RE
  | wb : RE
  | grp : Nat → RE → RE

/-- Capture-group spans recorded during a match. -/
structure Caps where
  c1 : Option (Nat × Nat) := none
  c2 : Option (Nat × Nat) := none
deriving DecidableEq

/-- Record a capture span for group `n`. -/
def Caps.set (cp : Caps) (n : Nat) (v : Nat × Nat) : Caps :=
  if n = 1 then { cp with c1 := some v } else { cp with c2 := some v }

/-- Result of an anchored match attempt: the end position and the captures. -/
structure MRes where
  mend : Nat
  caps : Caps
deriving DecidableEq

/-- Termination measure for the matcher: pattern size, counting the upper
bound of a counted repetition. -/
def reSize : RE → Nat
  | .eps | .anyc | .chr _ | .chrCI _ | .cls _ | .bos | .bol | .eosN | .eolM | .wb => 1
  | .seq a b => 1 + reSize a + reSize b
  | .alt a b => 1 + reSize a + reSize b
  | .star r => 1 + reSize r
  | .rep r _ hi _ => 1 + reSize r + hi
  | .grp _ r => 1 + reSize r

/-- Backtracking matcher in continuation-passing style.  `rest` is the
unread input, `pos` the absolute position, `prev` the character before
`pos` (for `^` and `\b`), `cp` the captures so far.  Alternation prefers the
left branch, `star` and greedy repetition prefer the longer match, lazy
repetition the shorter one, mirroring Python's `re`.  Recursion is
structural on a fuel bounding the nesting depth of match steps; callers
supply fuel ample for their pattern and input (`reFuel`), so exhaustion is
unreachable there. -/
def mMatch : Nat → RE → Str → Nat → Option Char → Caps →
    (Str → Nat → Option Char → Caps → Option MRes) → Option MRes
  | 0, _, _, _, _, _, _ => none
  | fuel + 1, r, rest, pos, prev, cp, k =>
    match r with
    | .eps => k rest pos prev cp
    | .anyc =>
      match rest with
      | [] => none
      | c :: t => if c = '\n' then none else k t (pos + 1) (some c) cp
    | .chr a =>
      match rest with
      | [] => none
      | c :: t => if c = a then k t (pos + 1) (some c) cp else none
    | .chrCI a =>
      match rest with
      | [] => none
      | c :: t => if lowc c = lowc a then k t (pos + 1) (some c) cp else none
    | .cls p =>
      match rest with
      | [] => none
      | c :: t => if p c then k t (pos + 1) (some c) cp else none
    | .seq a b =>
      mMatch fuel a rest pos prev cp fun r2 p2 v2 c2 => mMatch fuel b r2 p2 v2 c2 k
    | .alt a b =>
      match mMatch fuel a rest pos prev cp k with
      | some res => some res
      | none => mMatch fuel b rest pos prev cp k
    | .star a =>
      match mMatch fuel a rest pos prev cp (fun r2 p2 v2 c2 =>
          if pos < p2 then mMatch fuel (.star a) r2 p2 v2 c2 k else none) with
      | some res => some res
      | none => k rest pos prev cp
    | .rep a lo hi lz =>
      match hi with
      | 0 => k rest pos prev cp
      | h + 1 =>
        match lo with
        | l + 1 => mMatch fuel a rest pos prev cp fun r2 p2 v2 c2 =>
            mMatch fuel (.rep a l h lz) r2 p2 v2 c2 k
        | 0 =>
          if lz then
            match k rest pos prev cp with
            | some res => some res
            | none => mMatch fuel a rest pos prev cp fun r2 p2 v2 c2 =>
                if pos < p2 then mMatch fuel (.rep a 0 h lz) r2 p2 v2 c2 k else none
          else
            match mMatch fuel a rest pos prev cp (fun r2 p2 v2 c2 =>
                if pos < p2 then mMatch fuel (.rep a 0 h lz) r2 p2 v2 c2 k else none) with
            | some res => some res
            | none => k rest pos prev cp
    | .bos => if pos = 0 then k rest pos prev cp else none
    | .bol => if pos = 0 || prev = some '\n' then k rest pos prev cp else none
    | .eosN =>
      match rest with
      | [] => k rest pos prev cp
      | [c] => if c = '\n' then k rest pos prev cp else none
      | _ => none
    | .eolM =>
      match rest with
      | [] => k rest pos prev cp
      | c :: _ => if c = '\n' then k rest pos prev cp else none
    | .wb =>
      let wl := match prev with | some c => isWordc c | none => false
      let wr := match rest with | c :: _ => isWordc c | [] => false
      if wl != wr then k rest pos prev cp else none
    | .grp n a =>
      mMatch fuel a rest pos prev cp fun r2 p2 v2 c2 => k r2 p2 v2 (c2.set n (pos, p2))

/-- Fuel ample for matching the given pattern against the given input: the
depth of match steps is bounded by the pattern size times the input length
(each `star` iteration must consume a character). -/
def reFuel (r : RE) (rest : Str) : Nat := (reSize r + 2) * (rest.length + 2)

/-- Anchored match attempt at the given state (Python's `re.match` when the
state is the start of the string). -/
def reTry (r : RE) (rest : Str) (pos : Nat) (prev : Option Char) : Option MRes :=
  mMatch (reFuel r rest) r rest pos prev {} fun _ p _ c => some ⟨p, c⟩

/-- A match found by scanning: start, end, captures. -/
structure MatchSpan where
  mstart : Nat
  mend : Nat
  caps : Caps
deriving DecidableEq

/-- Scan for the leftmost match from the given state (Python `re.search`). -/
def searchAux (r : RE) : Str → Nat → Option Char → Option MatchSpan
  | rest, pos, prev =>
    match reTry r rest pos prev with
    | some res => some ⟨pos, res.mend, res.caps⟩
    | none =>
      match rest with
      | [] => none
      | c :: t => searchAux r t (pos + 1) (some c)

/-- Python `re.search`. -/
def reSearch (r : RE) (s : Str) : Option MatchSpan := searchAux r s 0 none

/-- Python `re.match`: anchored at position 0. -/
def reMatchStart (r : RE) (s : Str) : Option MRes := reTry r s 0 none

/-- Python `re.finditer`: all non-overlapping matches, scanning left to
right; an empty match advances the scan by one character. -/
def findIterAux (r : RE) : Nat → Str → Nat → Option Char → List MatchSpan
  | 0, _, _, _ => []
  | fuel + 1, rest, pos, prev =>
    match reTry r rest pos prev with
    | some res =>
      let e := res.mend
      let d := e - pos
      if 0 < d then
        ⟨pos, e, res.caps⟩ :: findIterAux r fuel (rest.drop d) e ((rest.take d).getLast?)
      else
        match rest with
        | [] => [⟨pos, e, res.caps⟩]
        | c :: t => ⟨pos, e, res.caps⟩ :: findIterAux r fuel t (pos + 1) (some c)
    | none =>
      match rest with
      | [] => []
      | c :: t => findIterAux r fuel t (pos + 1) (some c)

/-- Python `re.finditer` over a whole string. -/
def reFindIter (r : RE) (s : Str) : List MatchSpan := findIterAux r (2 * s.length + 2) s 0 none

/-- Text of capture group 1 of a match (`m.group(1)`), relative to the string
the match was found in. -/
def capStr (s : Str) (m : MatchSpan) : Str :=
  match m.caps.c1 with
  | some (a, b) => pySlice s a b
  | none => []

/-- Text of capture group 2 of a match (`m.group(2)`). -/
def cap2Str (s : Str) (m : MatchSpan) : Str :=
  match m.caps.c2 with
  | some (a, b) => pySlice s a b
  | none => []

/-- Python `re.sub`: replace every match of `r` in `s` by `repl`. -/
def subSplice (s : Str) (repl : Str) : List MatchSpan → Nat → Str
  | [], pos => s.drop pos
  | m :: rest, pos => pySlice s pos m.mstart ++ repl ++ subSplice s repl rest m.mend

/-- Python `re.sub` over a whole string. -/
def reSub (r : RE) (repl : Str) (s : Str) : Str := subSplice s repl (reFindIter r s) 0

/-- Concatenation of a list of regular expressions. -/
def rcat : List RE → RE
  | [] => .eps
  | [r] => r
  | r :: t => .seq r (rcat t)

/-- Alternation of a list of regular expressions, preferred left to right. -/
def ralts : List RE → RE
  | [] => .eps
  | [r] => r
  | r :: t => .alt r (ralts t)

/-- Case-sensitive literal. -/
def rlit (s : Str) : RE := rcat (s.map .chr)

/-- Case-insensitive literal (`re.IGNORECASE`). -/
def rlitCI (s : Str) : RE := rcat (s.map .chrCI)

/-- `r?` (greedy option). -/
def ropt (r : RE) : RE := .rep r 0 1 false

/-- `r+` (greedy). -/
def rplus (r : RE) : RE := .seq r (.star r)

/-!
String literals used by the parser, written as character lists.
-/

def litTable : Str := ['T', 'a', 'b', 'l', 'e']
def litTableColon : Str := ['T', 'a', 'b', 'l', 'e', ':', ' ']
def litUnnamed : Str := ['u', 'n', 'n', 'a', 'm', 'e', 'd']
def litSection : Str := ['S', 'e', 'c', 't', 'i', 'o', 'n']
def litArticle : Str := ['A', 'r', 't', 'i', 'c', 'l', 'e']
def litSubsection : Str := ['S', 'u', 'b', 's', 'e', 'c', 't', 'i', 'o', 'n']
def litClause : Str := ['C', 'l', 'a', 'u', 's', 'e']
def litSubclause : Str := ['S', 'u', 'b', 'c', 'l', 'a', 'u', 's', 'e']
def litSentence : Str := ['S', 'e', 'n', 't', 'e', 'n', 'c', 'e']
def litOr : Str := ['o', 'r']
def litAnd : Str := ['a', 'n', 'd']
def litSee : Str := ['s', 'e', 'e']
def litSeeAlso : Str := ['s', 'e', 'e', ' ', 'a', 'l', 's', 'o']
def litSeeArticle : Str := ['s', 'e', 'e', ' ', 'A', 'r', 't', 'i', 'c', 'l', 'e']
def litSeeSection : Str := ['s', 'e', 'e', ' ', 'S', 'e', 'c', 't', 'i', 'o', 'n']
def litNotesToTable : Str := ['N', 'o', 't', 'e', 's', ' ', 't', 'o', ' ', 'T', 'a', 'b', 'l', 'e']
def litNttLower : Str := ['n', 'o', 't', 'e', 's', ' ', 't', 'o', ' ', 't', 'a', 'b', 'l', 'e']
def litCol1 : Str := ['c', 'o', 'l', '1']
def litCol2 : Str := ['c', 'o', 'l', '2']
def litCol3 : Str := ['c', 'o', 'l', '3']
def litStarStar : Str := ['*', '*']

/-!
The parser's regular expressions, transliterated pattern by pattern.
-/

def reDigit : RE := .cls isDigitc
def reWS : RE := .cls isWSc
def reNotNl : RE := .cls (fun c => c != '\n')

/-- `\d+\.` -/
def dgrp : RE := .seq (rplus reDigit) (.chr '.')

/-- `(?:\d+\.){2,4}` -/
def dotted24 : RE := .rep dgrp 2 4 false

/-- Section-header pattern of `_extract_sections`:
`^(?:#{2,}\s*(?:Section\s+)?)?(\d+(?:\.\d+)*\.)\s+([^\n]+)` with `re.MULTILINE`. -/
def headerRE : RE :=
  rcat [ .bol,
         ropt (rcat [ .chr '#', rplus (.chr '#'), .star reWS,
                      ropt (.seq (rlit litSection) (rplus reWS)) ]),
         .grp 1 (rcat [ rplus reDigit, .star (.seq (.chr '.') (rplus reDigit)), .chr '.' ]),
         rplus reWS,
         .grp 2 (rplus reNotNl) ]

/-- List-item look-behind check of `_extract_sections`: `\d+\)\s*$`. -/
def listItemRE : RE := rcat [rplus reDigit, .chr ')', .star reWS, .eosN]

/-- Keyword alternation of the labeled-reference pattern, in source order. -/
def kwRE : RE :=
  ralts [ rlitCI litArticle, .seq (rlitCI litArticle) (ropt (.chrCI 's')),
          rlitCI litSection, .seq (rlitCI litSection) (ropt (.chrCI 's')),
          rlitCI litSubsection, .seq (rlitCI litSubsection) (ropt (.chrCI 's')),
          rlitCI litClause, .seq (rlitCI litClause) (ropt (.chrCI 's')),
          rlitCI litSubclause, .seq (rlitCI litSubclause) (ropt (.chrCI 's')),
          rlitCI litSentence, .seq (rlitCI litSentence) (ropt (.chrCI 's')) ]

/-- Labeled-reference pattern of `_extract_references`:
`\b(?:Article|Articles?|…|Sentences?)\s+((?:\d+\.){2,4}(?:\([^\)]*\))*)`, case
insensitive. -/
def labeledRE : RE :=
  rcat [ .wb, kwRE, rplus reWS,
         .grp 1 (.seq dotted24
           (.star (rcat [.chr '(', .star (.cls (fun c => c != ')')), .chr ')']))) ]

/-- `(?:-[A-Z])?` under `re.IGNORECASE` (the class also matches lowercase). -/
def tblSuffix : RE := ropt (.seq (.chr '-') (.cls isAlphac))

/-- Table-reference pattern of `_extract_references`:
`\bTable(?:s)?\s+((?:\d+\.){2,4}(?:-[A-Z])?(?:\s+(?:or|and)\s+(?:\d+\.){2,4}(?:-[A-Z])?)*)`,
case insensitive. -/
def tableRefRE : RE :=
  rcat [ .wb, rlitCI litTable, ropt (.chrCI 's'), rplus reWS,
         .grp 1 (rcat [ dotted24, tblSuffix,
           .star (rcat [ rplus reWS, .alt (rlitCI litOr) (rlitCI litAnd), rplus reWS,
                         dotted24, tblSuffix ]) ]) ]

/-- `((?:\d+\.){2,4})` — bare dotted number with 2 to 4 groups. -/
def additionalNumRE : RE := .grp 1 dotted24

/-- Loose-reference pattern of `_extract_references`:
`(?:(?:see|see also|see Article|see Section)\b.{0,80}?|\()\s*(((?:\d+\.){2,4}))`,
case insensitive; `.{0,80}?` is a lazy bounded gap. -/
def looseRE : RE :=
  rcat [ .alt (rcat [ ralts [rlitCI litSee, rlitCI litSeeAlso, rlitCI litSeeArticle,
                             rlitCI litSeeSection],
                      .wb, .rep .anyc 0 80 true ])
              (.chr '('),
         .star reWS, .grp 1 dotted24 ]

/-- Header row of a markdown table: `^\|[^\n]*\|\s*\n`. -/
def hdrRow : RE := rcat [.bol, .chr '|', .star reNotNl, .chr '|', .star reWS, .chr '\n']

/-- Divider row: `^\|(?:\s*[:-]+[-\s|:]*)\|\s*\n`. -/
def divRow : RE :=
  rcat [.bol, .chr '|', .star reWS, rplus (.cls (fun c => c = ':' || c = '-')),
        .star (.cls (fun c => c = '-' || isWSc c || c = '|' || c = ':')),
        .chr '|', .star reWS, .chr '\n']

/-- Data row: `^\|[^\n]*\|\s*\n?`. -/
def datRow : RE := rcat [.bol, .chr '|', .star reNotNl, .chr '|', .star reWS, ropt (.chr '\n')]

/-- Markdown-table block pattern of `_extract_tables_from_section_text`
(header row, divider row, one or more data rows), with `re.MULTILINE`. -/
def tableBlockRE : RE := rcat [hdrRow, divRow, rplus datRow]

/-- Characters of a table identifier: `[0-9A-Za-z\.\-]`. -/
def isTblId (c : Char) : Bool := isDigitc c || isAlphac c || c = '.' || c = '-'

/-- Header-cell caption pattern: `(?i)\bTable\s+([0-9A-Za-z\.\-]+\.?)\b`. -/
def headerCellRE : RE :=
  rcat [.wb, rlitCI litTable, rplus reWS,
        .grp 1 (.seq (rplus (.cls isTblId)) (ropt (.chr '.'))), .wb]

/-- Caption search pattern: `(?i)Table\s+([0-9A-Za-z\.\-]+\.?)`. -/
def captionSearchRE : RE :=
  rcat [rlitCI litTable, rplus reWS,
        .grp 1 (.seq (rplus (.cls isTblId)) (ropt (.chr '.')))]

/-- Caption-like line pattern (used with `re.match`):
`^\s*(?:\*{0,2}\s*Notes to Table\b|Table\s+[0-9A-Za-z\.\-]+\.?|Table\b).*$`,
case insensitive. -/
def captionLineRE : RE :=
  rcat [.bos, .star reWS,
        ralts [ rcat [.rep (.chr '*') 0 2 false, .star reWS, rlitCI litNotesToTable, .wb],
                rcat [rlitCI litTable, rplus reWS, rplus (.cls isTblId), ropt (.chr '.')],
                .seq (rlitCI litTable) .wb ],
        .star .anyc, .eosN]

/-- `<br\s*/?>` (case insensitive), first substitution of `clean_title_text`. -/
def brRE : RE := rcat [.chr '<', .chrCI 'b', .chrCI 'r', .star reWS, ropt (.chr '/'), .chr '>']

/-- `[_\*]{1,2}`, second substitution of `clean_title_text`. -/
def emphRE : RE := .rep (.cls (fun c => c = '_' || c = '*')) 1 2 false

/-- `^[\s\.\-\:]+` (anchored), third substitution of `clean_title_text`. -/
def leadPunctRE : RE :=
  .seq .bos (rplus (.cls (fun c => isWSc c || c = '.' || c = '-' || c = ':')))

/-- `\s+`, fourth substitution of `clean_title_text`. -/
def wsRunRE : RE := rplus reWS

/-- Substitution patterns of `_clean_content`, all with `re.MULTILINE`:
subsection header lines `^\d+(?:\.\d+)*\.?\s+[^\n]+$`. -/
def ccSubsecRE : RE :=
  rcat [.bol, rplus reDigit, .star (.seq (.chr '.') (rplus reDigit)), ropt (.chr '.'),
        rplus reWS, rplus reNotNl, .eolM]

/-- Markdown-formatting lines `^\s*[#\*_\-]+\s*$`. -/
def ccFormatRE : RE :=
  rcat [.bol, .star reWS,
        rplus (.cls (fun c => c = '#' || c = '*' || c = '_' || c = '-')),
        .star reWS, .eolM]

/-- Page-number lines `^\s*_?\*{0,2}\d+-\d+\*{0,2}_?\s*$`. -/
def ccPageRE : RE :=
  rcat [.bol, .star reWS, ropt (.chr '_'), .rep (.chr '*') 0 2 false,
        rplus reDigit, .chr '-', rplus reDigit,
        .rep (.chr '*') 0 2 false, ropt (.chr '_'), .star reWS, .eolM]

/-- Header lines `^#{2,}\s+.*$`. -/
def ccHeaderRE : RE :=
  rcat [.bol, .chr '#', rplus (.chr '#'), rplus reWS, .star .anyc, .eolM]

/-- Leftover table lines `^\|.*\|$`. -/
def ccTableLineRE : RE := rcat [.bol, .chr '|', .star .anyc, .chr '|', .eolM]

/-- Divider leftovers `^\s*[-\s\|:]{3,}\s*$`. -/
def ccDividerRE : RE :=
  rcat [.bol, .star reWS,
        rcat [ .cls (fun c => c = '-' || isWSc c || c = '|' || c = ':'),
               .cls (fun c => c = '-' || isWSc c || c = '|' || c = ':'),
               rplus (.cls (fun c => c = '-' || isWSc c || c = '|' || c = ':')) ],
        .star reWS, .eolM]

/-- Blank-line runs `\n{3,}`. -/
def ccBlankRE : RE := rcat [.chr '\n', .chr '\n', rplus (.chr '\n')]

/-!
Data model: `Section`, table records, and Python-dict association lists.
-/

/-- A stored table: `{'table_name': …, 'table_content': …}`. -/
structure TableRec where
  tname : Str
  tcontent : Str
deriving DecidableEq, Inhabited

/-- A section of the building code (the `Section` dataclass). -/
structure Section where
  number : Str
  title : Str
  text : Str
  startPos : Nat
  endPos : Nat
  tables : List (Str × TableRec) := []
  referencedText : List Str := []
deriving DecidableEq, Inhabited

/-- The `depth` property: `self.number.count('.')`. -/
def Section.depth (s : Section) : Nat := s.number.count '.'

/-- Python-dict lookup on an association list. -/
def alGet {α : Type} : List (Str × α) → Str → Option α
  | [], _ => none
  | (k, v) :: t, key => if k = key then some v else alGet t key

/-- Python-dict assignment `d[key] = v`: replace in place if the key is
present, otherwise append (insertion order). -/
def alSet {α : Type} : List (Str × α) → Str → α → List (Str × α)
  | [], key, v => [(key, v)]
  | (k, w) :: t, key, v => if k = key then (key, v) :: t else (k, w) :: alSet t key v

/-- Keys of an association list. -/
def alKeys {α : Type} (l : List (Str × α)) : List Str := l.map Prod.fst

/-- Splitting a section number into its dotted groups:
`number.rstrip('.').split('.')`. -/
def splitParts (s : Str) : List Str := pySplit '.' (pyRstrip '.' s)

/-- Joining dotted groups back into a section path with trailing dot:
`'.'.join(parts) + '.'`. -/
def dotted (ps : List Str) : Str := List.intercalate ['.'] ps ++ ['.']

/-!
`_extract_sections`: scan for header lines, filter false positives, build the
ordered stub list.
-/

/-- A raw header match before filtering. -/
structure RawHdr where
  hstart : Nat
  hend : Nat
  number : Str
  title : Str
deriving DecidableEq, Inhabited

/-- Stable insertion into a list sorted by match start. -/
def insSorted (x : RawHdr) : List RawHdr → List RawHdr
  | [] => [x]
  | y :: t => if y.hstart ≤ x.hstart then y :: insSorted x t else x :: y :: t

/-- Stable sort by match start (`filtered_matches.sort(key=…'start')`). -/
def sortByStart (l : List RawHdr) : List RawHdr := l.foldl (fun acc x => insSorted x acc) []

/-- The part-9 / table-artifact filter of `_extract_sections`. -/
def keepHdr (m : RawHdr) : Bool :=
  let num := pyRstrip '.' m.number
  let parts := pySplit '.' num
  let titleLower := m.title.map lowc
  parts.headD [] = ['9'] && 2 ≤ parts.length &&
    !(substrOf litNttLower titleLower || substrOf litCol1 titleLower ||
      substrOf litCol2 titleLower || substrOf litCol3 titleLower)

/-- `_extract_sections`: all section stubs, in document order. -/
def extractSections (text : Str) : List Section :=
  let collected := (reFindIter headerRE text).filterMap fun m =>
    let number := pyStrip (capStr text m)
    let title := pyStrip (cap2Str text m)
    let lineStart := pySlice text (m.mstart - 5) m.mstart
    if (reSearch listItemRE lineStart).isSome then none
    else some (⟨m.mstart, m.mend, number, title⟩ : RawHdr)
  let sorted := sortByStart (collected.filter keepHdr)
  sorted.map fun m =>
    let number := if m.number.getLast? = some '.' then m.number else m.number ++ ['.']
    { number := number, title := m.title, text := [], startPos := m.hend, endPos := 0 }

/-!
`_extract_content`, part 1: the body span of each section.
-/

/-- End position of a section's body given the start of the next section's
header match: back up to the last newline within a 200-character window. -/
def endPosFor (text : Str) (nextStart : Nat) : Nat :=
  match pyRfindChar '\n' (pySlice text (nextStart - 200) nextStart) with
  | some k => nextStart - 200 + k
  | none => nextStart

/-!
`_extract_tables_from_section_text`.
-/

/-- `clean_title_text`: the four caption-cleanup substitutions and a strip. -/
def cleanTitleText (s : Str) : Str :=
  let s1 := reSub brRE [' '] s
  let s2 := reSub emphRE [] s1
  let s3 := reSub leadPunctRE [] s2
  pyStrip (reSub wsRunRE [' '] s3)

/-- First line of the table block with nonempty strip (`header_line`). -/
def firstNonemptyLine : List Str → Str
  | [] => []
  | ln :: rest => if pyStrip ln = [] then firstNonemptyLine rest else pyStrip ln

/-- Search the header-row cells for a `Table <num>` token; returns the
derived key and caption. -/
def findHeaderKey : List Str → Option (Str × Str)
  | [] => none
  | cell :: rest =>
    let cellText := pyStrip cell
    if cellText = [] then findHeaderKey rest
    else
      match reSearch headerCellRE cellText with
      | some m =>
        let rawNum := pyStrip (capStr cellText m)
        let after := pyStrip (cellText.drop m.mend)
        some (litTable ++ [' '] ++ normDot rawNum, cleanTitleText after)
      | none => findHeaderKey rest

/-- Search the reversed look-back lines for the first line containing a
`Table <num>` token; returns its index and the derived key. -/
def findTableLine : List Str → Option (Nat × Str)
  | [] => none
  | line :: rest =>
    match reSearch captionSearchRE line with
    | some m =>
      let rawNum := pyStrip (capStr line m)
      some (0, litTable ++ [' '] ++ normDot rawNum)
    | none =>
      match findTableLine rest with
      | some (idx, k) => some (idx + 1, k)
      | none => none

/-- Collect the stripped caption-title lines above the `Table` line, stopping
at another `Table` line. -/
def collectTitleLines : List Str → List Str
  | [] => []
  | l :: rest =>
    let tl := pyStrip l
    if tl = [] then collectTitleLines rest
    else if (reSearch captionSearchRE tl).isSome then []
    else tl :: collectTitleLines rest

/-- The upward caption scan before a table block (up to 10 lines): blank
lines, caption-like lines, and short lines mentioning `Table` extend the
removal region. -/
def captionScan (raw : Str) : Nat → Nat → Nat → Nat
  | 0, _, removeStart => removeStart
  | f + 1, pos, removeStart =>
    let lineStart :=
      match pyRfindChar '\n' (raw.take pos) with
      | some p => p + 1
      | none => 0
    let line := pyStrip (pySlice raw lineStart pos)
    if line = [] then captionScan raw f lineStart lineStart
    else if (reMatchStart captionLineRE line).isSome then captionScan raw f lineStart lineStart
    else if line.length ≤ 80 &&
        (substrOf litTable line || substrOf litNotesToTable line ||
         litStarStar.isPrefixOf line) then
      captionScan raw f lineStart lineStart
    else removeStart

/-- Key and caption derivation for one table match, plus the caption-region
start when the caption was found by look-back (`caption_region_start`). -/
def matchKeyName (raw : Str) (m : MatchSpan) : Str × Str × Option Nat :=
  let tableText := pyRstrip '\n' (pySlice raw m.mstart m.mend)
  let headerLine := firstNonemptyLine (pySplitlines tableText)
  let cells := pySplit '|' headerLine
  let step1 : Option Str × Str × Bool :=
    match findHeaderKey cells with
    | some (k, n) => (some k, n, true)
    | none => (none, [], false)
  let key1 := step1.1
  let name1 := step1.2.1
  let foundInHeader := step1.2.2
  let lookbackStart := m.mstart - 1200
  let contextBefore := pySlice raw lookbackStart m.mstart
  let step2 : Option Str × Str × Option Nat :=
    if foundInHeader then (key1, name1, none)
    else
      match findTableLine (pySplitlines contextBefore).reverse with
      | some (idx, k) =>
        let titleLines := (collectTitleLines ((pySplitlines contextBefore).reverse.take idx)).reverse
        let nm := cleanTitleText (List.intercalate [' '] titleLines)
        let crs :=
          match (reFindIter captionSearchRE contextBefore).getLast? with
          | some mt => some (lookbackStart + mt.mstart)
          | none => none
        (some k, nm, crs)
      | none => (key1, name1, none)
  match step2 with
  | (some k, nm, crs) => (k, nm, crs)
  | (none, _, crs) =>
    match reSearch captionSearchRE headerLine with
    | some m2 =>
      let rawNum := pyStrip (capStr headerLine m2)
      (litTable ++ [' '] ++ normDot rawNum,
       cleanTitleText (pyStrip (headerLine.drop m2.mend)), crs)
    | none =>
      let sk := pyStrip (headerLine.take 60)
      let safeKey := if sk = [] then litUnnamed else sk
      (litTableColon ++ safeKey, [], crs)

/-- One step of the `while unique_key in tables` disambiguation loop:
candidate key for a given counter. -/
def keyCand (base : Str) (counter : Nat) : Str :=
  if counter = 1 then base else base ++ (' ' :: '(' :: (natRepr counter ++ [')']))

/-- The disambiguation loop itself, fuelled by the number of stored keys. -/
def ukAux (keys : List Str) (base : Str) : Nat → Nat → Str
  | 0, counter => keyCand base counter
  | fuel + 1, counter =>
    if keyCand base counter ∈ keys then ukAux keys base fuel (counter + 1)
    else keyCand base counter

/-- `unique_key`: the first non-colliding candidate. -/
def uniqueKey (keys : List Str) (base : Str) : Str := ukAux keys base (keys.length + 2) 1

/-- Processing of a single table match inside the reverse-order loop:
derive the key and caption, store the table, and cut the removal region out
of the running cleaned text. -/
def processMatch (raw : Str) (acc : List (Str × TableRec) × Str) (m : MatchSpan) :
    List (Str × TableRec) × Str :=
  let tables := acc.1
  let cleaned := acc.2
  let tableText := pyRstrip '\n' (pySlice raw m.mstart m.mend)
  let knc := matchKeyName raw m
  let baseKey := if knc.1 = [] then litTable else knc.1
  let uk := uniqueKey (alKeys tables) baseKey
  let tables' := alSet tables uk ⟨knc.2.1, tableText⟩
  let removeStart :=
    match knc.2.2 with
    | some v => v
    | none => captionScan raw 10 m.mstart m.mstart
  (tables', cleaned.take removeStart ++ '\n' :: cleaned.drop m.mend)

/-- All markdown-table matches of a body text. -/
def tableMatches (raw : Str) : List MatchSpan := reFindIter tableBlockRE raw

/-- `_extract_tables_from_section_text`: returns the updated tables mapping
and the body text with table blocks and captions removed. -/
def extractTablesFromSectionText (tables : List (Str × TableRec)) (raw : Str) :
    List (Str × TableRec) × Str :=
  let ms := tableMatches raw
  if ms = [] then (tables, raw)
  else ms.reverse.foldl (processMatch raw) (tables, raw)

/-!
`_clean_content`.
-/

/-- `_clean_content`: the cleanup substitutions applied to the body text
after table removal, then a strip. -/
def cleanContent (content : Str) : Str :=
  let c1 := reSub ccSubsecRE [] content
  let c2 := reSub ccFormatRE [] c1
  let c3 := reSub ccPageRE [] c2
  let c4 := reSub ccHeaderRE [] c3
  let c5 := reSub ccTableLineRE [] c4
  let c6 := reSub ccDividerRE [] c5
  let c7 := reSub ccBlankRE ['\n', '\n'] c6
  pyStrip c7

/-!
`_extract_references`: three prioritized passes writing into a shared
seen-set.  In the source the `seen` set always holds exactly the tokens of
`found_ordered`, so the model keeps the single ordered list and guards
appends by membership (`pushTok`); `table_numbers` is a set used only for
membership, modelled as the list of numbers in discovery order.
-/

/-- Append a token unless it was already emitted (the seen-set guard). -/
def pushTok (found : List Str) (tok : Str) : List Str :=
  if tok ∈ found then found else found ++ [tok]

/-- Pass 1, per match: the dotted numbers inside a chained table citation
(`re.findall(r'((?:\d+\.){2,4})', m.group(1))`), normalized. -/
def tableNumsOf (text : Str) (m : MatchSpan) : List Str :=
  (reFindIter additionalNumRE (capStr text m)).map fun mm => normDot (capStr (capStr text m) mm)

/-- Pass 1 of `_extract_references`: table references first; returns the
ordered emissions and the side-set of numbers claimed by tables. -/
def refPass1 (text : Str) : List Str × List Str :=
  (reFindIter tableRefRE text).foldl
    (fun acc m =>
      (tableNumsOf text m).foldl
        (fun acc2 tn => (pushTok acc2.1 (litTable ++ [' '] ++ tn), acc2.2 ++ [tn]))
        acc)
    ([], [])

/-- The 200-character look-ahead slice after a labeled-reference match. -/
def lookaheadSlice (text : Str) (mend : Nat) : Str :=
  pySlice text mend (min text.length (mend + 200))

/-- Pass 2 of `_extract_references`: labeled references; a lead number
already claimed by a table aborts the whole match (the source's `continue`
skips the look-ahead too). -/
def refPass2 (text : Str) (tnums : List Str) (found0 : List Str) : List Str :=
  (reFindIter labeledRE text).foldl
    (fun found m =>
      let grp := capStr text m
      let tail := lookaheadSlice text m.mend
      let addToks := (reFindIter additionalNumRE tail).map fun mm => normDot (capStr tail mm)
      let foldAdds := fun f0 =>
        addToks.foldl (fun f a => if a ∈ tnums then f else pushTok f a) f0
      match reMatchStart additionalNumRE grp with
      | some lead =>
        let normalized := normDot (pySlice grp 0 lead.mend)
        if normalized ∈ tnums then found
        else foldAdds (pushTok found normalized)
      | none => foldAdds found)
    found0

/-- Pass 3 of `_extract_references`: loose references near `see` or inside
parentheses. -/
def refPass3 (text : Str) (tnums : List Str) (found0 : List Str) : List Str :=
  (reFindIter looseRE text).foldl
    (fun found m =>
      let tkn := capStr text m
      if tkn = [] then found
      else
        let t := normDot tkn
        if t ∈ tnums then found else pushTok found t)
    found0

/-- `_extract_references`: the three passes in priority order. -/
def extractReferences (text : Str) : List Str :=
  if text = [] then []
  else
    let p1 := refPass1 text
    refPass3 text p1.2 (refPass2 text p1.2 p1.1)

/-!
`_extract_content`, part 2: the final per-section reference filter.
-/

/-- The ancestor set built in `_extract_content`: dotted prefixes with at
least two groups of the section's own (normalized) number. -/
def ancestorsOf (selfNum : Str) : List Str :=
  let parts := splitParts selfNum
  ((List.range' 1 (parts.length - 2)).map
      (fun i => List.intercalate ['.'] (parts.take (i + 1)) ++ ['.'])).filter
    (fun anc => 2 ≤ anc.count '.')

/-- The final filter of `_extract_content`: keep only normalized references
that are not the section itself, not an ancestor, and not one of the
section's own tables. -/
def filterRefs (selfNum : Str) (ownTableIds : List Str) (rawRefs : List Str) : List Str :=
  rawRefs.filterMap fun r =>
    let n := normDot r
    if n = selfNum then none
    else if n ∈ ancestorsOf selfNum then none
    else if n ∈ ownTableIds then none
    else some n

/-- Per-section body of the `_extract_content` loop: span end, raw body,
table extraction, content cleanup, reference extraction and filtering. -/
def processSection (text : Str) (nextStart : Option Nat) (s : Section) : Section :=
  let endPos :=
    match nextStart with
    | some ns => endPosFor text ns
    | none => text.length
  let rawContent := pySlice text s.startPos endPos
  let tr := extractTablesFromSectionText s.tables rawContent
  let cleanedText := cleanContent tr.2
  let rawRefs := extractReferences cleanedText
  let selfNum := normDot s.number
  { s with endPos := endPos, text := cleanedText, tables := tr.1,
           referencedText := filterRefs selfNum (alKeys tr.1) rawRefs }

/-- `_extract_content` over the whole section list. -/
def extractContent (text : Str) : List Section → List Section
  | [] => []
  | s :: rest =>
    processSection text ((rest.head?).map (·.startPos)) s :: extractContent text rest

/-!
`_build_hierarchy` and `_insert_section`.
-/

/-- A node of the output hierarchy: title, text, tables, references, and the
`subsections` mapping. -/
inductive PNode where
  | mk (title : Str) (text : Str) (tables : List (Str × TableRec))
       (refs : List Str) (subs : List (Str × PNode))

/-- The hierarchy is a Python dict from path to node. -/
abbrev Tree := List (Str × PNode)

/-- The `subsections` mapping of a node. -/
def PNode.subs : PNode → Tree
  | .mk _ _ _ _ s => s

/-- Replace the `subsections` mapping of a node. -/
def PNode.withSubs : PNode → Tree → PNode
  | .mk a b c d _, s => .mk a b c d s

/-- The node built for an inserted section (fresh empty `subsections`). -/
def newNode (s : Section) : PNode :=
  .mk s.title s.text s.tables s.referencedText []

/-- An orphan warning: the missing ancestor key and the dropped section. -/
structure Warn where
  missing : Str
  orphan : Str
deriving DecidableEq

/-- The ancestor keys walked by `_insert_section`:
`'.'.join(parts[:i+1]) + '.'` for `i in range(1, len(parts)-1)`. -/
def parentKeys (parts : List Str) : List Str :=
  (List.range' 1 (parts.length - 2)).map
    fun i => List.intercalate ['.'] (parts.take (i + 1)) ++ ['.']

/-- The parent walk of `_insert_section`: descend through the ancestor keys'
`subsections`, failing with the first missing key, then insert the node. -/
def insertWalk : Tree → List Str → Str → PNode → Except Str Tree
  | t, [], leaf, node => .ok (alSet t leaf node)
  | t, k :: ks, leaf, node =>
    match alGet t k with
    | none => .error k
    | some pn =>
      match insertWalk pn.subs ks leaf node with
      | .error e => .error e
      | .ok subs2 => .ok (alSet t k (pn.withSubs subs2))

/-- `_insert_section`: top-level sections go directly to the root; deeper
sections walk their ancestor chain, and a missing ancestor drops the section
with a warning, leaving the tree unchanged. -/
def insertSection (root : Tree) (s : Section) : Tree × Option Warn :=
  let parts := splitParts s.number
  if parts.length = 2 then (alSet root s.number (newNode s), none)
  else
    match insertWalk root (parentKeys parts) s.number (newNode s) with
    | .ok t => (t, none)
    | .error k => (root, some ⟨k, s.number⟩)

/-- `_build_hierarchy`: insert every section in order, collecting warnings. -/
def buildHierarchy (secs : List Section) : Tree × List Warn :=
  secs.foldl
    (fun acc s =>
      let r := insertSection acc.1 s
      (r.1, acc.2 ++ r.2.toList))
    ([], [])

/-- Navigation through successive `subsections` mappings by key. -/
def navigate : Tree → List Str → Option Tree
  | t, [] => some t
  | t, k :: ks =>
    match alGet t k with
    | none => none
    | some pn => navigate pn.subs ks

/-- The full parse pipeline on a markdown text (the `parse` method). -/
def parseSections (text : Str) : List Section :=
  extractContent text (extractSections text)

/-- `parse`: the hierarchy built from the extracted sections. -/
def parse (text : Str) : Tree × List Warn := buildHierarchy (parseSections text)

/-!
Well-formed dotted paths and round-trip lemmas between `dotted` and
`splitParts`.
-/

/-- Well-formed group list of a dotted path: nonempty, every group nonempty
and free of dots (as produced by the header pattern `\d+(\.\d+)*\.`). -/
def wfPartsB (ps : List Str) : Bool :=
  !ps.isEmpty && ps.all fun p => !p.isEmpty && !(p.any (· = '.'))

theorem wfPartsB_ne_nil {ps : List Str} (h : wfPartsB ps = true) : ps ≠ [] := by
  intro he
  subst he
  simp [wfPartsB] at h

theorem wfPartsB_mem {ps : List Str} (h : wfPartsB ps = true) {p : Str} (hp : p ∈ ps) :
    p ≠ [] ∧ '.' ∉ p := by
  have := (Bool.and_eq_true _ _).mp h
  have h2 := (List.all_eq_true.mp this.2) p hp
  have h3 := (Bool.and_eq_true _ _).mp h2
  constructor
  · intro he; subst he; simp at h3
  · intro hm
    have := h3.2
    simp only [Bool.not_eq_true', List.any_eq_false] at this
    exact absurd rfl (this '.' hm)

theorem wfPartsB_take {ps : List Str} (h : wfPartsB ps = true) {k : Nat} (hk : 0 < k) :
    wfPartsB (ps.take k) = true := by
  have hne := wfPartsB_ne_nil h
  apply (Bool.and_eq_true _ _).mpr
  constructor
  · cases ps with
    | nil => exact absurd rfl hne
    | cons a t => cases k with
      | zero => omega
      | succ k => simp [List.isEmpty]
  · apply List.all_eq_true.mpr
    intro p hp
    exact (List.all_eq_true.mp ((Bool.and_eq_true _ _).mp h).2) p (List.mem_of_mem_take hp)

theorem intercalate_two {α : Type} (sep a : List α) (l : List (List α)) (h : l ≠ []) :
    List.intercalate sep (a :: l) = a ++ sep ++ List.intercalate sep l := by
  cases l with
  | nil => exact absurd rfl h
  | cons b t => simp [List.intercalate, List.intersperse]

theorem intercalate_singleton {α : Type} (sep a : List α) :
    List.intercalate sep [a] = a := by
  simp [List.intercalate, List.intersperse]

theorem intercalate_ne_nil {ps : List Str} (h : wfPartsB ps = true) :
    List.intercalate ['.'] ps ≠ [] := by
  cases ps with
  | nil => exact absurd rfl (wfPartsB_ne_nil h)
  | cons a t =>
    have ha := (wfPartsB_mem h (List.mem_cons_self a t)).1
    cases t with
    | nil => rw [intercalate_singleton]; exact ha
    | cons b r =>
      rw [intercalate_two _ _ _ (by simp)]
      intro he
      rcases List.append_eq_nil.mp (List.append_eq_nil.mp he).1 with ⟨h1, _⟩
      exact ha h1

theorem getLast?_intercalate_ne_dot {ps : List Str} (h : wfPartsB ps = true) :
    (List.intercalate ['.'] ps).getLast? ≠ some '.' := by
  induction ps with
  | nil => exact absurd rfl (wfPartsB_ne_nil h)
  | cons a t ih =>
    have ha := wfPartsB_mem h (List.mem_cons_self a t)
    cases t with
    | nil =>
      rw [intercalate_singleton]
      intro he
      have hmem := List.mem_getLast?_eq_getLast (l := a) (x := '.') (by rw [he]; rfl)
      exact ha.2 (hmem.choose_spec ▸ List.getLast_mem hmem.choose)
    | cons b r =>
      have hwf2 : wfPartsB (b :: r) = true := by
        apply (Bool.and_eq_true _ _).mpr
        refine ⟨by simp [List.isEmpty], ?_⟩
        apply List.all_eq_true.mpr
        intro p hp
        exact (List.all_eq_true.mp ((Bool.and_eq_true _ _).mp h).2) p (List.mem_cons_of_mem a hp)
      rw [intercalate_two _ _ _ (by simp), List.append_assoc,
          List.getLast?_append_of_ne_nil _ (by
            intro he
            exact intercalate_ne_nil hwf2 (List.append_eq_nil.mp he).2),
          List.getLast?_append_of_ne_nil _ (intercalate_ne_nil hwf2)]
      exact ih hwf2

theorem pyRstrip_append_same (c : Char) (l : Str) :
    pyRstrip c (l ++ [c]) = pyRstrip c l := by
  simp [pyRstrip, List.dropWhile]

theorem pyRstrip_of_getLast?_ne {c : Char} {l : Str} (h : l.getLast? ≠ some c) :
    pyRstrip c l = l := by
  cases hl : l.reverse with
  | nil =>
    have : l = [] := by simpa using congrArg List.reverse hl
    simp [this, pyRstrip]
  | cons x t =>
    have hx : l.getLast? = some x := by
      rw [← List.head?_reverse, hl]; rfl
    have hxc : ¬(x = c) := by
      intro he; exact h (by rw [hx, he])
    simp [pyRstrip, hl, List.dropWhile, hxc]
    have : l = (x :: t).reverse := by
      simpa using congrArg List.reverse hl
    simp [this]

/-- Round trip: splitting a well-formed dotted path recovers its groups. -/
theorem splitParts_dotted {ps : List Str} (h : wfPartsB ps = true) :
    splitParts (dotted ps) = ps := by
  unfold splitParts dotted pySplit
  rw [pyRstrip_append_same, pyRstrip_of_getLast?_ne (getLast?_intercalate_ne_dot h)]
  exact List.splitOn_intercalate ps '.' (fun l hl => (wfPartsB_mem h hl).2) (wfPartsB_ne_nil h)

theorem wfPartsB_tail {a : Str} {t : List Str} (h : wfPartsB (a :: t) = true) (ht : t ≠ []) :
    wfPartsB t = true := by
  apply (Bool.and_eq_true _ _).mpr
  constructor
  · cases t with
    | nil => exact absurd rfl ht
    | cons b r => simp [List.isEmpty]
  · apply List.all_eq_true.mpr
    intro p hp
    exact (List.all_eq_true.mp ((Bool.and_eq_true _ _).mp h).2) p (List.mem_cons_of_mem a hp)

theorem count_intercalate {ps : List Str} (h : wfPartsB ps = true) :
    (List.intercalate ['.'] ps).count '.' + 1 = ps.length := by
  induction ps with
  | nil => exact absurd rfl (wfPartsB_ne_nil h)
  | cons a t ih =>
    have ha := wfPartsB_mem h (List.mem_cons_self a t)
    have hca : a.count '.' = 0 := List.count_eq_zero.mpr ha.2
    cases t with
    | nil => simp [intercalate_singleton, hca]
    | cons b r =>
      have hwf2 := wfPartsB_tail h (by simp)
      have hih := ih hwf2
      rw [intercalate_two _ _ _ (by simp), List.count_append, List.count_append, hca]
      have hdot : List.count '.' ['.'] = 1 := by decide
      rw [hdot]
      simp only [List.length_cons] at *
      omega

/-- The dot count of a well-formed dotted path is its number of groups. -/
theorem count_dotted {ps : List Str} (h : wfPartsB ps = true) :
    (dotted ps).count '.' = ps.length := by
  unfold dotted
  rw [List.count_append]
  have h1 := count_intercalate h
  have hdot : List.count '.' ['.'] = 1 := by decide
  rw [hdot]
  omega

/-!
Claim C5 — depth of a section number.
-/

/-- A section numbered `9.1.`, as produced by a parse of a top-level header. -/
def c5sec : Section :=
  { number := ['9', '.', '1', '.'], title := [], text := [], startPos := 0, endPos := 0 }

/-- Claim C5, counterexample: the claim says `depth("9.1.") = 1` (group count
minus one), but `Section.depth` is `number.count('.')`, which is `2` for
`"9.1."`; the claimed equation fails on this section. -/
theorem c5_depth_counterexample :
    c5sec.depth = 2 ∧ (splitParts c5sec.number).length - 1 = 1 ∧
      ¬ c5sec.depth = (splitParts c5sec.number).length - 1 := by
  refine ⟨by decide, by decide, by decide⟩

/-- Claim C5 (amended): for a well-formed dotted number the depth equals the
number of groups (not groups minus one): `depth("9.1.") = 2`,
`depth("9.23.11.3.") = 4`.  The flat-list split agrees, and the hierarchy
walk visits `groups - 2` ancestors, so a successfully placed section sits at
tree level `groups - 1`, consistently with its depth. -/
theorem c5_depth_eq_group_count (ps : List Str) (s : Section)
    (hwf : wfPartsB ps = true) (hnum : s.number = dotted ps) :
    s.depth = ps.length ∧ splitParts s.number = ps ∧
      (parentKeys ps).length = ps.length - 2 := by
  refine ⟨?_, ?_, ?_⟩
  · show s.number.count '.' = ps.length
    rw [hnum]
    exact count_dotted hwf
  · rw [hnum]
    exact splitParts_dotted hwf
  · unfold parentKeys
    rw [List.length_map, List.length_range']

/-- Claim C5 witness: the amended statement evaluated at the section
`9.23.11.3.` (an Article: four groups, depth 4, two walked ancestors). -/
theorem c5_depth_eq_group_count_witness :
    ({ number := ['9', '.', '2', '3', '.', '1', '1', '.', '3', '.'], title := [], text := [],
       startPos := 0, endPos := 0 } : Section).depth = 4 ∧
      (parentKeys [['9'], ['2', '3'], ['1', '1'], ['3']]).length = 2 := by
  have h := c5_depth_eq_group_count [['9'], ['2', '3'], ['1', '1'], ['3']]
    { number := ['9', '.', '2', '3', '.', '1', '1', '.', '3', '.'], title := [], text := [],
      startPos := 0, endPos := 0 } (by decide) (by decide)
  exact ⟨h.1, h.2.2⟩

/-!
Claim C9 — a measurement such as `9.5 mm` is neither a section heading nor a
reference.
-/

/-- The prose line of the C9 scenario: `9.5 mm gypsum board`. -/
def c9line : Str :=
  ['9', '.', '5', ' ', 'm', 'm', ' ', 'g', 'y', 'p', 's', 'u', 'm', ' ',
   'b', 'o', 'a', 'r', 'd']

/-- Claim C9: on the input line `9.5 mm gypsum board`, section extraction
produces no section stub and reference extraction emits no token — `9.5`
has no trailing dot, and `9.` has only one dotted group, so the header
pattern and every reference pattern reject it. -/
theorem c9_measurement_not_section_not_reference :
    extractSections c9line = [] ∧ extractReferences c9line = [] := by
  exact ⟨rfl, rfl⟩

/-!
Claim C8 — letter-suffixed table citations normalize, deduplicate, and claim
their bare number.
-/

/-- Prose containing `Table 9.10.3.1.-A or 9.10.3.1.-B` (preceded by `see`,
so the loose pass would also see the bare number). -/
def c8prose : Str :=
  ['s', 'e', 'e', ' ', 'T', 'a', 'b', 'l', 'e', ' ', '9', '.', '1', '0', '.', '3', '.', '1',
   '.', '-', 'A', ' ', 'o', 'r', ' ', '9', '.', '1', '0', '.', '3', '.', '1', '.', '-', 'B']

/-- The single expected reference token. -/
def c8tok : Str :=
  ['T', 'a', 'b', 'l', 'e', ' ', '9', '.', '1', '0', '.', '3', '.', '1', '.']

/-- The bare dotted number of the C8 scenario. -/
def c8num : Str := ['9', '.', '1', '0', '.', '3', '.', '1', '.']

/-- Claim C8: for a section (here `9.10.15.1.`, with no tables of its own)
whose prose contains `Table 9.10.3.1.-A or 9.10.3.1.-B`, the final
referenced-text list is exactly `["Table 9.10.3.1."]` — both letter-suffixed
forms normalize to one deduplicated token — and the bare number
`9.10.3.1.` is claimed by the table pass, so no pass emits it as a plain
section reference. -/
theorem c8_table_suffix_dedup :
    filterRefs (normDot ['9', '.', '1', '0', '.', '1', '5', '.', '1', '.']) []
        (extractReferences c8prose) = [c8tok] ∧
      c8num ∉ extractReferences c8prose := by
  refine ⟨rfl, by decide⟩

/-!
Claim C1 — the final reference filter excludes the section itself, its
ancestors, and its own tables.
-/

theorem mem_filterRefs {selfNum : Str} {tids rawRefs : List Str} {x : Str}
    (h : x ∈ filterRefs selfNum tids rawRefs) :
    x ≠ selfNum ∧ x ∉ ancestorsOf selfNum ∧ x ∉ tids := by
  unfold filterRefs at h
  obtain ⟨r, _, hr⟩ := List.mem_filterMap.mp h
  by_cases h1 : normDot r = selfNum
  · simp [h1] at hr
  · by_cases h2 : normDot r ∈ ancestorsOf selfNum
    · simp [h1, h2] at hr
    · by_cases h3 : normDot r ∈ tids
      · simp [h1, h2, h3] at hr
      · simp only [h1, h2, h3, if_false, if_neg, Option.some.injEq] at hr
        subst hr
        exact ⟨h1, h2, h3⟩

theorem dotted_prefix_mem_ancestors {selfNum : Str} {ps : List Str} {q : List Str}
    (hps : splitParts selfNum = ps) (hwf : wfPartsB ps = true)
    (hpre : q <+: ps) (hne : q ≠ ps) (hq2 : 2 ≤ q.length) :
    dotted q ∈ ancestorsOf selfNum := by
  have hlt : q.length < ps.length := by
    rcases Nat.lt_or_ge q.length ps.length with h | h
    · exact h
    · have := hpre.length_le
      exact absurd (hpre.eq_of_length (by omega)) hne
  have hq : q = ps.take q.length := List.prefix_iff_eq_take.mp hpre
  unfold ancestorsOf
  rw [hps]
  apply List.mem_filter.mpr
  constructor
  · apply List.mem_map.mpr
    refine ⟨q.length - 1, ?_, ?_⟩
    · apply List.mem_range'_1.mpr
      omega
    · have : q.length - 1 + 1 = q.length := by omega
      rw [this, ← hq]
      rfl
  · have hwfq : wfPartsB q = true := by
      rw [hq]; exact wfPartsB_take hwf (by omega)
    have := count_dotted hwfq
    simpa [this] using hq2

/-- Claim C1: the filtered `referenced_text` of a section never contains the
section's own normalized path, any strict dotted-prefix ancestor with at
least two groups, or any key of the section's own `tables` mapping. -/
theorem c1_referenced_text_exclusions (number : Str) (tids rawRefs : List Str)
    (ps : List Str) (hps : splitParts (normDot number) = ps) (hwf : wfPartsB ps = true) :
    normDot number ∉ filterRefs (normDot number) tids rawRefs ∧
    (∀ q : List Str, q <+: ps → q ≠ ps → 2 ≤ q.length →
      dotted q ∉ filterRefs (normDot number) tids rawRefs) ∧
    (∀ k ∈ tids, k ∉ filterRefs (normDot number) tids rawRefs) := by
  refine ⟨?_, ?_, ?_⟩
  · intro hmem
    exact (mem_filterRefs hmem).1 rfl
  · intro q hpre hne hq2 hmem
    exact (mem_filterRefs hmem).2.1 (dotted_prefix_mem_ancestors hps hwf hpre hne hq2)
  · intro k hk hmem
    exact (mem_filterRefs hmem).2.2 hk

/-- Claim C1 witness: a section `9.23.11.3.` with an own table
`Table 9.23.11.3.`; neither its own path, nor its ancestors `9.23.` and
`9.23.11.`, nor its table key survive the filter, on a raw reference list
containing all of them. -/
theorem c1_referenced_text_exclusions_witness :
    (let selfNum : Str := ['9', '.', '2', '3', '.', '1', '1', '.', '3', '.']
     let tids : List Str :=
       [['T', 'a', 'b', 'l', 'e', ' ', '9', '.', '2', '3', '.', '1', '1', '.', '3', '.']]
     let raws : List Str :=
       [['9', '.', '2', '3', '.'], ['9', '.', '2', '3', '.', '1', '1', '.', '3', '.'],
        ['T', 'a', 'b', 'l', 'e', ' ', '9', '.', '2', '3', '.', '1', '1', '.', '3', '.'],
        ['9', '.', '5', '.', '5', '.'], ['9', '.', '2', '3', '.', '1', '1', '.']]
     normDot selfNum ∉ filterRefs (normDot selfNum) tids raws ∧
       dotted [['9'], ['2', '3']] ∉ filterRefs (normDot selfNum) tids raws ∧
       dotted [['9'], ['2', '3'], ['1', '1']] ∉ filterRefs (normDot selfNum) tids raws ∧
       ['T', 'a', 'b', 'l', 'e', ' ', '9', '.', '2', '3', '.', '1', '1', '.', '3', '.']
         ∉ filterRefs (normDot selfNum) tids raws) := by
  intro selfNum tids raws
  have h := c1_referenced_text_exclusions selfNum tids raws
    [['9'], ['2', '3'], ['1', '1'], ['3']] (by decide) (by decide)
  refine ⟨h.1, ?_, ?_, ?_⟩
  · exact h.2.1 [['9'], ['2', '3']] ⟨[['1', '1'], ['3']], by decide⟩ (by decide) (by decide)
  · exact h.2.1 [['9'], ['2', '3'], ['1', '1']] ⟨[['3']], by decide⟩ (by decide) (by decide)
  · exact h.2.2 _ (by decide)

/-!
Claim C4 — idempotence of table removal.
-/

/-- A section body with two markdown tables.  The second table has no
`Table` token in its header row, so its caption look-back finds the
`Table 9.5.` token inside the FIRST table's header row, and its removal
region starts inside the first table's match — invalidating the offsets the
first table's own removal then uses on the already-edited text. -/
def c4raw : Str :=
  ['i', 'n', 't', 'r', 'o', '\n', '|', 'T', 'a', 'b', 'l', 'e', ' ', '9', '.', '5', '.',
   ' ', 't', '|', '\n', '|', '-', '|', '\n', '|', 'b', '|', '\n', 'm', '\n', '|', 'c', '|',
   '\n', '|', '-', '|', '\n', '|', 'd', '|', '\n', 's', 't', 'o', 'p', '\n', 'a', 'a', 'a',
   'a', 'a', 'a', 'a', 'a', 'a', 'a', 'a', 'a', 'a', 'a', '\n', 'X', '|', 'h', '|', '\n',
   '|', '-', '|', '\n', '|', 'q', '|', '\n', 'E', 'N', 'D', '\n']

/-- The cleaned text of the first extraction run on `c4raw`. -/
def c4cleaned : Str := (extractTablesFromSectionText [] c4raw).2

/-- Claim C4, counterexample: table removal is not idempotent.  After one
extraction run on `c4raw`, the cleaned text still contains a full markdown
table block (`|h|`, `|-|`, `|q|` become adjacent rows), so a second run
finds a match, records a new table, and changes the text again. -/
theorem c4_idempotence_counterexample :
    (tableMatches c4cleaned).length = 1 ∧
      (extractTablesFromSectionText [] c4cleaned).2 ≠ c4cleaned ∧
      (extractTablesFromSectionText [] c4cleaned).1 ≠ [] := by
  refine ⟨by decide, by decide, by decide⟩

/-- Claim C4 (amended): table removal is not idempotent in general — when a
caption look-back region overlaps an earlier table match, the spliced text
can expose a new table block (see the counterexample).  What does hold is
the fixed-point form the claim reduces to on table-free text: if the
markdown-table regex has no match, extraction returns the text unchanged
and records no table. -/
theorem c4_no_match_fixed_point (tables : List (Str × TableRec)) (raw : Str)
    (h : tableMatches raw = []) :
    extractTablesFromSectionText tables raw = (tables, raw) := by
  unfold extractTablesFromSectionText
  simp [h]

/-- Claim C4 witness: the amended statement on a table-free body. -/
theorem c4_no_match_fixed_point_witness :
    tableMatches ['n', 'o', ' ', 't', 'a', 'b', 'l', 'e', 's', '\n', 'h', 'e', 'r', 'e'] = [] ∧
      extractTablesFromSectionText []
          ['n', 'o', ' ', 't', 'a', 'b', 'l', 'e', 's', '\n', 'h', 'e', 'r', 'e']
        = ([], ['n', 'o', ' ', 't', 'a', 'b', 'l', 'e', 's', '\n', 'h', 'e', 'r', 'e']) :=
  ⟨by decide, c4_no_match_fixed_point []
    ['n', 'o', ' ', 't', 'a', 'b', 'l', 'e', 's', '\n', 'h', 'e', 'r', 'e'] (by decide)⟩

/-!
Claim C3 — table keys are unique; collisions get a numeric suffix; nothing
is overwritten or dropped.
-/

theorem keyCand_inj {base : Str} {i j : Nat} (_hi : 1 ≤ i) (_hj : 1 ≤ j)
    (h : keyCand base i = keyCand base j) : i = j := by
  unfold keyCand at h
  by_cases h1 : i = 1 <;> by_cases h2 : j = 1
  · omega
  · rw [if_pos h1, if_neg h2] at h
    have := congrArg List.length h
    simp at this
  · rw [if_neg h1, if_pos h2] at h
    have := congrArg List.length h
    simp at this
  · rw [if_neg h1, if_neg h2] at h
    have h3 := List.append_cancel_left h
    have h4 : natRepr i ++ [')'] = natRepr j ++ [')'] := by
      injection h3 with _ h3'
      injection h3' with _ h3''
    have h5 := List.append_cancel_right h4
    exact natRepr_injective h5

theorem nodup_subset_length {l₁ l₂ : List Str} (h1 : l₁.Nodup) (h2 : l₁ ⊆ l₂) :
    l₁.length ≤ l₂.length := by
  calc l₁.length = l₁.toFinset.card := (List.toFinset_card_of_nodup h1).symm
    _ ≤ l₂.toFinset.card := Finset.card_le_card fun x hx =>
        List.mem_toFinset.mpr (h2 (List.mem_toFinset.mp hx))
    _ ≤ l₂.length := l₂.toFinset_card_le

theorem exists_fresh_cand (keys : List Str) (base : Str) :
    ∃ i, 1 ≤ i ∧ i ≤ keys.length + 1 ∧ keyCand base i ∉ keys := by
  by_contra hc
  push_neg at hc
  have hsub : ((List.range' 1 (keys.length + 1)).map (keyCand base)) ⊆ keys := by
    intro x hx
    obtain ⟨i, hi, rfl⟩ := List.mem_map.mp hx
    have := List.mem_range'_1.mp hi
    exact hc i this.1 (by omega)
  have hnd : ((List.range' 1 (keys.length + 1)).map (keyCand base)).Nodup := by
    apply List.Nodup.map_on
    · intro x hx y hy hxy
      have hx1 := (List.mem_range'_1.mp hx).1
      have hy1 := (List.mem_range'_1.mp hy).1
      exact keyCand_inj hx1 hy1 hxy
    · exact List.nodup_range' _ _
  have := nodup_subset_length hnd hsub
  simp [List.length_range'] at this

theorem ukAux_not_mem (keys : List Str) (base : Str) :
    ∀ fuel c, (∃ i, c ≤ i ∧ i < c + fuel ∧ keyCand base i ∉ keys) →
      ukAux keys base fuel c ∉ keys := by
  intro fuel
  induction fuel with
  | zero =>
    intro c ⟨i, h1, h2, _⟩
    omega
  | succ f ih =>
    intro c ⟨i, h1, h2, h3⟩
    show (if keyCand base c ∈ keys then ukAux keys base f (c + 1) else keyCand base c) ∉ keys
    split
    · next hmem =>
      apply ih (c + 1)
      refine ⟨i, ?_, by omega, h3⟩
      rcases Nat.eq_or_lt_of_le h1 with rfl | hlt
      · exact absurd hmem h3
      · omega
    · next hmem => exact hmem

theorem uniqueKey_not_mem (keys : List Str) (base : Str) : uniqueKey keys base ∉ keys := by
  obtain ⟨i, h1, h2, h3⟩ := exists_fresh_cand keys base
  exact ukAux_not_mem keys base (keys.length + 2) 1 ⟨i, h1, by omega, h3⟩

theorem ukAux_is_cand (keys : List Str) (base : Str) :
    ∀ fuel c, ∃ j, c ≤ j ∧ ukAux keys base fuel c = keyCand base j := by
  intro fuel
  induction fuel with
  | zero => intro c; exact ⟨c, le_rfl, rfl⟩
  | succ f ih =>
    intro c
    show ∃ j, c ≤ j ∧ (if keyCand base c ∈ keys then ukAux keys base f (c + 1)
        else keyCand base c) = keyCand base j
    split
    · obtain ⟨j, hj, he⟩ := ih (c + 1)
      exact ⟨j, by omega, he⟩
    · exact ⟨c, le_rfl, rfl⟩

theorem uniqueKey_of_not_mem {keys : List Str} {base : Str} (h : base ∉ keys) :
    uniqueKey keys base = base := by
  show (if keyCand base 1 ∈ keys then ukAux keys base (keys.length + 1) 2
      else keyCand base 1) = base
  rw [if_neg (by simpa [keyCand] using h)]
  rfl

theorem uniqueKey_suffix_of_mem {keys : List Str} {base : Str} (h : base ∈ keys) :
    ∃ n, 2 ≤ n ∧ uniqueKey keys base = base ++ (' ' :: '(' :: (natRepr n ++ [')'])) := by
  obtain ⟨j, hj, he⟩ := ukAux_is_cand keys base (keys.length + 2) 1
  have hfresh := uniqueKey_not_mem keys base
  have hj2 : j ≠ 1 := by
    intro rfl1
    rw [show uniqueKey keys base = ukAux keys base (keys.length + 2) 1 from rfl, he, rfl1] at hfresh
    exact hfresh (by simpa [keyCand] using h)
  refine ⟨j, by omega, ?_⟩
  rw [show uniqueKey keys base = ukAux keys base (keys.length + 2) 1 from rfl, he]
  simp [keyCand, hj2]

theorem alKeys_alSet_not_mem {α : Type} {t : List (Str × α)} {k : Str} (v : α)
    (h : k ∉ alKeys t) : alSet t k v = t ++ [(k, v)] := by
  induction t with
  | nil => rfl
  | cons p rest ih =>
    have hne : ¬(p.1 = k) := by
      intro he
      apply h
      simp only [alKeys, List.map_cons, List.mem_cons]
      exact Or.inl he.symm
    have h2 : k ∉ alKeys rest := by
      intro hm
      apply h
      simp only [alKeys, List.map_cons, List.mem_cons]
      exact Or.inr hm
    show (if p.1 = k then (k, v) :: rest else p :: alSet rest k v) = p :: (rest ++ [(k, v)])
    rw [if_neg hne, ih h2]

theorem alGet_append_right_of_ne {α : Type} {t : List (Str × α)} {k u : Str} {v : α}
    (h : k ≠ u) : alGet (t ++ [(u, v)]) k = alGet t k := by
  induction t with
  | nil =>
    show (if u = k then some v else alGet ([] : List (Str × α)) k)
      = alGet ([] : List (Str × α)) k
    rw [if_neg (fun he => h he.symm)]
  | cons p rest ih =>
    show (if p.1 = k then some p.2 else alGet (rest ++ [(u, v)]) k)
      = (if p.1 = k then some p.2 else alGet rest k)
    split
    · rfl
    · exact ih

theorem alGet_ne_none_of_mem {α : Type} {t : List (Str × α)} {k : Str}
    (hk : k ∈ alKeys t) : alGet t k ≠ none := by
  induction t with
  | nil => simp [alKeys] at hk
  | cons p rest ih =>
    show (if p.1 = k then some p.2 else alGet rest k) ≠ none
    by_cases hpk : p.1 = k
    · simp [hpk]
    · rw [if_neg hpk]
      apply ih
      simp only [alKeys, List.map_cons, List.mem_cons] at hk
      rcases hk with hk | hk
      · exact absurd hk.symm hpk
      · exact hk

theorem mem_alKeys_of_alGet_ne_none {α : Type} {t : List (Str × α)} {k : Str}
    (h : alGet t k ≠ none) : k ∈ alKeys t := by
  induction t with
  | nil => exact absurd rfl h
  | cons p rest ih =>
    by_cases hpk : p.1 = k
    · simp only [alKeys, List.map_cons, List.mem_cons]
      exact Or.inl hpk.symm
    · have h2 : alGet rest k ≠ none := by
        intro hn
        apply h
        show (if p.1 = k then some p.2 else alGet rest k) = none
        rw [if_neg hpk]
        exact hn
      simp only [alKeys, List.map_cons, List.mem_cons]
      exact Or.inr (ih h2)

theorem processMatch_fst (raw : Str) (acc : List (Str × TableRec) × Str) (m : MatchSpan) :
    (processMatch raw acc m).1
      = alSet acc.1
          (uniqueKey (alKeys acc.1)
            (if (matchKeyName raw m).1 = [] then litTable else (matchKeyName raw m).1))
          ⟨(matchKeyName raw m).2.1, pyRstrip '\n' (pySlice raw m.mstart m.mend)⟩ := rfl

/-- One fold step of the table-storing loop preserves key uniqueness, old
bindings, and adds exactly one entry. -/
theorem processMatch_tables (raw : Str) (acc : List (Str × TableRec) × Str) (m : MatchSpan)
    (h : (alKeys acc.1).Nodup) :
    (alKeys (processMatch raw acc m).1).Nodup ∧
    (processMatch raw acc m).1.length = acc.1.length + 1 ∧
    (∀ k, k ∈ alKeys acc.1 → alGet (processMatch raw acc m).1 k = alGet acc.1 k) := by
  have hfresh := uniqueKey_not_mem (alKeys acc.1)
    (if (matchKeyName raw m).1 = [] then litTable else (matchKeyName raw m).1)
  have heq : (processMatch raw acc m).1
      = acc.1 ++ [(uniqueKey (alKeys acc.1)
          (if (matchKeyName raw m).1 = [] then litTable else (matchKeyName raw m).1),
        ⟨(matchKeyName raw m).2.1, pyRstrip '\n' (pySlice raw m.mstart m.mend)⟩)] := by
    rw [processMatch_fst]
    exact alKeys_alSet_not_mem _ hfresh
  rw [heq]
  refine ⟨?_, by simp, ?_⟩
  · have hk2 : alKeys (acc.1 ++ [(uniqueKey (alKeys acc.1)
        (if (matchKeyName raw m).1 = [] then litTable else (matchKeyName raw m).1),
        (⟨(matchKeyName raw m).2.1, pyRstrip '\n' (pySlice raw m.mstart m.mend)⟩ : TableRec))])
        = alKeys acc.1 ++ [uniqueKey (alKeys acc.1)
            (if (matchKeyName raw m).1 = [] then litTable else (matchKeyName raw m).1)] := by
      simp [alKeys]
    rw [hk2, List.nodup_append]
    refine ⟨h, List.nodup_singleton _, ?_⟩
    intro a ha hb
    simp only [List.mem_singleton] at hb
    subst hb
    exact hfresh ha
  · intro k hk
    apply alGet_append_right_of_ne
    intro he
    subst he
    exact hfresh hk

/-- The fold over all matches in reverse order. -/
theorem foldl_processMatch (raw : Str) (ms : List MatchSpan) :
    ∀ (tables : List (Str × TableRec)) (cleaned : Str), (alKeys tables).Nodup →
      (alKeys (ms.foldl (processMatch raw) (tables, cleaned)).1).Nodup ∧
      (ms.foldl (processMatch raw) (tables, cleaned)).1.length = tables.length + ms.length ∧
      (∀ k, k ∈ alKeys tables →
        alGet (ms.foldl (processMatch raw) (tables, cleaned)).1 k = alGet tables k) := by
  induction ms with
  | nil => intro tables cleaned h; exact ⟨h, by simp, fun k _ => rfl⟩
  | cons m rest ih =>
    intro tables cleaned h
    have hstep := processMatch_tables raw (tables, cleaned) m h
    have hmem : ∀ k, k ∈ alKeys tables → k ∈ alKeys (processMatch raw (tables, cleaned) m).1 := by
      intro k hk
      apply mem_alKeys_of_alGet_ne_none
      rw [hstep.2.2 k hk]
      exact alGet_ne_none_of_mem hk
    have hrec := ih (processMatch raw (tables, cleaned) m).1
      (processMatch raw (tables, cleaned) m).2 hstep.1
    have hfold : rest.foldl (processMatch raw) (processMatch raw (tables, cleaned) m)
        = rest.foldl (processMatch raw)
            ((processMatch raw (tables, cleaned) m).1, (processMatch raw (tables, cleaned) m).2) := by
      rfl
    refine ⟨?_, ?_, ?_⟩
    · simpa [hfold] using hrec.1
    · have := hrec.2.1
      rw [hstep.2.1] at this
      simp only [List.foldl_cons]
      rw [hfold, this]
      simp [List.length_cons]
      omega
    · intro k hk
      simp only [List.foldl_cons]
      rw [hfold, hrec.2.2 k (hmem k hk), hstep.2.2 k hk]

/-- Claim C3: after table extraction the keys of the tables mapping are
pairwise distinct; a stored entry is never overwritten (old keys keep their
bindings); no table is dropped (one entry per detected block); the chosen
key is the base key when it is fresh, and otherwise the base key with an
appended numeric suffix `" (n)"`, `n ≥ 2`, itself fresh. -/
theorem c3_table_key_uniqueness (tables0 : List (Str × TableRec)) (raw : Str)
    (hnd : (alKeys tables0).Nodup) :
    (alKeys (extractTablesFromSectionText tables0 raw).1).Nodup ∧
    (∀ k, k ∈ alKeys tables0 →
      alGet (extractTablesFromSectionText tables0 raw).1 k = alGet tables0 k) ∧
    (extractTablesFromSectionText tables0 raw).1.length
      = tables0.length + (tableMatches raw).length ∧
    (∀ keys base, uniqueKey keys base ∉ keys) ∧
    (∀ keys base, base ∉ keys → uniqueKey keys base = base) ∧
    (∀ keys base, base ∈ keys →
      ∃ n, 2 ≤ n ∧ uniqueKey keys base = base ++ (' ' :: '(' :: (natRepr n ++ [')']))) := by
  unfold extractTablesFromSectionText
  by_cases hms : tableMatches raw = []
  · rw [hms]
    simp only [if_pos rfl]
    exact ⟨hnd, fun k _ => rfl, by simp [hms], fun keys base => uniqueKey_not_mem keys base,
      fun keys base h => uniqueKey_of_not_mem h, fun keys base h => uniqueKey_suffix_of_mem h⟩
  · simp only [if_neg hms]
    have h := foldl_processMatch raw (tableMatches raw).reverse tables0 raw hnd
    refine ⟨h.1, h.2.2, ?_, fun keys base => uniqueKey_not_mem keys base,
      fun keys base hb => uniqueKey_of_not_mem hb, fun keys base hb => uniqueKey_suffix_of_mem hb⟩
    rw [h.2.1, List.length_reverse]

/-- A body with two tables whose header captions both read `Table 9.9.`. -/
def c3raw : Str :=
  ['|', 'T', 'a', 'b', 'l', 'e', ' ', '9', '.', '9', '.', ' ', 'a', '|', '\n', '|', '-',
   '|', '\n', '|', 'x', '|', '\n', 'm', 'i', 'd', '\n', '|', 'T', 'a', 'b', 'l', 'e', ' ',
   '9', '.', '9', '.', ' ', 'b', '|', '\n', '|', '-', '|', '\n', '|', 'y', '|', '\n']

/-- Claim C3 witness: a body with two tables whose derived keys collide; the
result holds two entries `Table 9.9.` and `Table 9.9. (2)`, with distinct
keys and nothing dropped. -/
theorem c3_table_key_uniqueness_witness :
    (alKeys (extractTablesFromSectionText [] c3raw).1).Nodup ∧
    (extractTablesFromSectionText [] c3raw).1.length = 2 ∧
    alKeys (extractTablesFromSectionText [] c3raw).1
      = [['T', 'a', 'b', 'l', 'e', ' ', '9', '.', '9', '.'],
         ['T', 'a', 'b', 'l', 'e', ' ', '9', '.', '9', '.', ' ', '(', '2', ')']] := by
  have h := c3_table_key_uniqueness [] c3raw List.nodup_nil
  refine ⟨h.1, ?_, by decide⟩
  have := h.2.2.1
  rw [this]
  decide

/-!
Claim C10 — inserting a duplicate path replaces the stored node with a
fresh one, discarding its children, with no warning.
-/

theorem PNode.subs_withSubs (pn : PNode) (s : Tree) : (pn.withSubs s).subs = s := by
  cases pn
  rfl

theorem alGet_alSet_self {α : Type} (t : List (Str × α)) (k : Str) (v : α) :
    alGet (alSet t k v) k = some v := by
  induction t with
  | nil => simp [alSet, alGet]
  | cons p rest ih =>
    by_cases hpk : p.1 = k
    · simp [alSet, alGet, hpk]
    · show alGet (if p.1 = k then (k, v) :: rest else p :: alSet rest k v) k = some v
      rw [if_neg hpk]
      show (if p.1 = k then some p.2 else alGet (alSet rest k v) k) = some v
      rw [if_neg hpk]
      exact ih

theorem alGet_alSet_ne {α : Type} (t : List (Str × α)) {k k2 : Str} (v : α)
    (h : k2 ≠ k) : alGet (alSet t k v) k2 = alGet t k2 := by
  induction t with
  | nil =>
    show (if k = k2 then some v else none) = none
    rw [if_neg (fun he => h he.symm)]
  | cons p rest ih =>
    by_cases hpk : p.1 = k
    · simp only [alSet, if_pos hpk, alGet]
      have h2 : ¬(p.1 = k2) := by rw [hpk]; exact fun he => h he.symm
      rw [if_neg (fun he => h he.symm), if_neg h2]
    · simp only [alSet, if_neg hpk, alGet]
      split
      · rfl
      · exact ih

theorem insertWalk_of_navigate {t tsub : Tree} {ks : List Str} (leaf : Str) (node : PNode)
    (h : navigate t ks = some tsub) :
    ∃ t2, insertWalk t ks leaf node = .ok t2 ∧
      navigate t2 ks = some (alSet tsub leaf node) := by
  induction ks generalizing t tsub with
  | nil =>
    have he : t = tsub := by
      simpa [navigate] using h
    subst he
    exact ⟨alSet t leaf node, rfl, rfl⟩
  | cons k rest ih =>
    cases hg : alGet t k with
    | none =>
      simp only [navigate, hg] at h
      exact Option.noConfusion h
    | some pn =>
      simp only [navigate, hg] at h
      obtain ⟨t2, hw, hn⟩ := ih h
      refine ⟨alSet t k (pn.withSubs t2), ?_, ?_⟩
      · simp only [insertWalk, hg, hw]
      · simp only [navigate, alGet_alSet_self, PNode.subs_withSubs]
        exact hn

/-- Claim C10: when a section's ancestors are present and its path already
has a stored node (a duplicate), inserting it again emits no warning and
replaces the mapping entry with a brand-new node — `newNode` carries an
empty `subsections` mapping, so any children attached under the old node
are silently discarded; duplicates are never detected or merged. -/
theorem c10_duplicate_path_replaces (root : Tree) (s : Section) (old : PNode) (tsub : Tree)
    (hnav : navigate root (parentKeys (splitParts s.number)) = some tsub)
    (hold : alGet tsub s.number = some old) :
    (insertSection root s).2 = none ∧
    (newNode s).subs = [] ∧
    ∃ t2, navigate (insertSection root s).1 (parentKeys (splitParts s.number)) = some t2 ∧
      alGet t2 s.number = some (newNode s) := by
  by_cases hl : (splitParts s.number).length = 2
  · have hpk : parentKeys (splitParts s.number) = [] := by
      unfold parentKeys
      rw [hl]
      rfl
    rw [hpk] at hnav
    have he : root = tsub := by simpa [navigate] using hnav
    subst he
    have hres : insertSection root s = (alSet root s.number (newNode s), none) := by
      unfold insertSection
      rw [if_pos hl]
    rw [hres, hpk]
    exact ⟨rfl, rfl, alSet root s.number (newNode s), rfl, alGet_alSet_self _ _ _⟩
  · obtain ⟨t2, hw, hn⟩ := insertWalk_of_navigate s.number (newNode s) hnav
    have hres : insertSection root s = (t2, none) := by
      unfold insertSection
      rw [if_neg hl, hw]
    rw [hres]
    exact ⟨rfl, rfl, alSet tsub s.number (newNode s), hn, alGet_alSet_self _ _ _⟩

/-- Sections used by the C10 witness. -/
def c10secA : Section :=
  { number := ['9', '.', '1', '.'], title := ['A'], text := [], startPos := 0, endPos := 0 }

def c10child : Section :=
  { number := ['9', '.', '1', '.', '2', '.'], title := ['C'], text := [],
    startPos := 0, endPos := 0 }

def c10secB : Section :=
  { number := ['9', '.', '1', '.'], title := ['B'], text := [], startPos := 0, endPos := 0 }

/-- The tree holding `9.1.` with child `9.1.2.`. -/
def c10root : Tree := (insertSection (insertSection [] c10secA).1 c10child).1

/-- Claim C10 witness: re-inserting `9.1.` into a tree where it already has
the child `9.1.2.` replaces it by a fresh node with empty subsections,
silently (no warning); the old child mapping is gone. -/
theorem c10_duplicate_path_replaces_witness :
    (insertSection c10root c10secB).2 = none ∧
    (∃ t2, navigate (insertSection c10root c10secB).1 (parentKeys (splitParts c10secB.number))
        = some t2 ∧ alGet t2 c10secB.number = some (newNode c10secB)) ∧
    (∀ pn, alGet c10root c10secB.number = some pn →
      alKeys pn.subs = [['9', '.', '1', '.', '2', '.']]) ∧
    (∀ pn, alGet (insertSection c10root c10secB).1 c10secB.number = some pn →
      alKeys pn.subs = []) := by
  have h := c10_duplicate_path_replaces c10root c10secB
    (PNode.mk ['A'] [] [] [] [(['9', '.', '1', '.', '2', '.'], newNode c10child)]) c10root
    rfl rfl
  refine ⟨h.1, h.2.2, ?_, ?_⟩
  · intro pn hpn
    have h2 : alGet c10root c10secB.number
        = some (PNode.mk ['A'] [] [] [] [(['9', '.', '1', '.', '2', '.'], newNode c10child)]) := rfl
    rw [h2] at hpn
    injection hpn with h3
    rw [← h3]
    rfl
  · intro pn hpn
    have h2 : alGet (insertSection c10root c10secB).1 c10secB.number
        = some (newNode c10secB) := rfl
    rw [h2] at hpn
    injection hpn with h3
    rw [← h3]
    rfl

/-!
Claim C2 — orphan sections are dropped with a warning naming the missing
ancestor; no placeholder is ever created; every node's ancestor chain is
present in the tree.
-/

/-- A key whose groups extend the given group list by exactly one group. -/
def extendsOne (pp : List Str) (k : Str) : Prop :=
  (splitParts k).length = pp.length + 1 ∧ (splitParts k).take pp.length = pp

/-- The condition a key must satisfy after navigating the key chain `ks`:
at the root it satisfies `cond0`, below a parent key it extends that
parent's groups by one. -/
def chainCond (cond0 : Str → Prop) : List Str → Str → Prop
  | [], k => cond0 k
  | [k0], k => extendsOne (splitParts k0) k
  | _ :: k1 :: ks, k => chainCond cond0 (k1 :: ks) k

/-- Well-placedness of a subtree: every key reachable by navigating a key
chain satisfies the chain's condition.  At the root (`RootOk`) the level-0
condition is "at most two groups", which is what `_insert_section` places
directly at the root. -/
def TreeOk (cond0 : Str → Prop) (t : Tree) : Prop :=
  ∀ ks t2, navigate t ks = some t2 → ∀ k pn, alGet t2 k = some pn → chainCond cond0 ks k

/-- Keys inserted directly at the root have at most two groups. -/
def rootCond (k : Str) : Prop := (splitParts k).length ≤ 2

/-- Well-placedness of the whole hierarchy. -/
def RootOk (root : Tree) : Prop := TreeOk rootCond root

theorem chainCond_irrel {c1 c2 : Str → Prop} :
    ∀ {ks : List Str} {k : Str}, ks ≠ [] → (chainCond c1 ks k ↔ chainCond c2 ks k) := by
  intro ks
  induction ks with
  | nil => intro k h; exact absurd rfl h
  | cons k0 rest ih =>
    intro k _
    cases rest with
    | nil => exact Iff.rfl
    | cons k1 rest2 => exact ih (by simp)

theorem treeOk_nil (c : Str → Prop) : TreeOk c [] := by
  intro ks t2 hnav k pn hget
  cases ks with
  | nil =>
    have : ([] : Tree) = t2 := by simpa [navigate] using hnav
    subst this
    exact absurd hget (by simp [alGet])
  | cons k1 rest =>
    simp only [navigate, alGet] at hnav
    exact Option.noConfusion hnav

theorem treeOk_key {c : Str → Prop} {t : Tree} {k : Str} {pn : PNode}
    (hok : TreeOk c t) (hget : alGet t k = some pn) : c k :=
  hok [] t rfl k pn hget

theorem treeOk_descend {c : Str → Prop} {t : Tree} {k0 : Str} {pn : PNode}
    (hok : TreeOk c t) (hget : alGet t k0 = some pn) :
    TreeOk (fun k => extendsOne (splitParts k0) k) pn.subs := by
  intro ks t2 hnav k pn2 hget2
  have hnav2 : navigate t (k0 :: ks) = some t2 := by
    simp only [navigate, hget]
    exact hnav
  have hcc := hok (k0 :: ks) t2 hnav2 k pn2 hget2
  cases ks with
  | nil => exact hcc
  | cons k1 rest => exact (chainCond_irrel (by simp)).mp hcc

theorem treeOk_alSet {c : Str → Prop} {t : Tree} {leaf : Str} {node : PNode}
    (hok : TreeOk c t) (hleaf : c leaf)
    (hnode : TreeOk (fun k => extendsOne (splitParts leaf) k) node.subs) :
    TreeOk c (alSet t leaf node) := by
  intro ks t2 hnav k pn hget
  cases ks with
  | nil =>
    have he : alSet t leaf node = t2 := by simpa [navigate] using hnav
    subst he
    by_cases hk : k = leaf
    · subst hk
      exact hleaf
    · rw [alGet_alSet_ne t node hk] at hget
      exact treeOk_key hok hget
  | cons k1 rest =>
    by_cases hk1 : k1 = leaf
    · subst hk1
      have hnav2 : navigate node.subs rest = some t2 := by
        simpa [navigate, alGet_alSet_self] using hnav
      have hcc := hnode rest t2 hnav2 k pn hget
      cases rest with
      | nil => exact hcc
      | cons k2 rest2 => exact (chainCond_irrel (by simp)).mp hcc
    · have hnav2 : navigate t (k1 :: rest) = some t2 := by
        rw [show navigate (alSet t leaf node) (k1 :: rest)
            = (match alGet (alSet t leaf node) k1 with
               | none => none
               | some pn2 => navigate pn2.subs rest) from rfl,
          alGet_alSet_ne t node hk1] at hnav
        simpa [navigate] using hnav
      exact hok (k1 :: rest) t2 hnav2 k pn hget

/-- The chain condition the walked keys impose on the leaf. -/
def WalkFits (cond0 : Str → Prop) : List Str → Str → Prop
  | [], leaf => cond0 leaf
  | k :: ks, leaf => WalkFits (fun k2 => extendsOne (splitParts k) k2) ks leaf

theorem insertWalk_ok_treeOk {node : PNode} {leaf : Str}
    (hnode : TreeOk (fun k => extendsOne (splitParts leaf) k) node.subs) :
    ∀ {ks : List Str} {c : Str → Prop} {t t2 : Tree},
      TreeOk c t → WalkFits c ks leaf →
      insertWalk t ks leaf node = .ok t2 → TreeOk c t2 := by
  intro ks
  induction ks with
  | nil =>
    intro c t t2 hok hfit hw
    have he : alSet t leaf node = t2 := by
      simpa [insertWalk] using hw
    subst he
    exact treeOk_alSet hok hfit hnode
  | cons k rest ih =>
    intro c t t2 hok hfit hw
    cases hg : alGet t k with
    | none =>
      simp only [insertWalk, hg] at hw
      exact Except.noConfusion hw
    | some pn =>
      simp only [insertWalk, hg] at hw
      cases hwk : insertWalk pn.subs rest leaf node with
      | error e => rw [hwk] at hw; cases hw
      | ok subs2 =>
        rw [hwk] at hw
        have he : alSet t k (pn.withSubs subs2) = t2 := by
          cases hw
          rfl
        subst he
        have hsub := treeOk_descend hok hg
        have hsub2 := ih hsub hfit hwk
        apply treeOk_alSet hok (treeOk_key hok hg)
        rw [PNode.subs_withSubs]
        exact hsub2

theorem insertWalk_error_spec {leaf : Str} {node : PNode} {e : Str} :
    ∀ {ks : List Str} {t : Tree}, insertWalk t ks leaf node = .error e →
      ∃ j t2, j < ks.length ∧ navigate t (ks.take j) = some t2 ∧
        ks.getD j [] = e ∧ alGet t2 e = none := by
  intro ks
  induction ks with
  | nil =>
    intro t h
    simp only [insertWalk] at h
    exact Except.noConfusion h
  | cons k rest ih =>
    intro t h
    cases hg : alGet t k with
    | none =>
      simp only [insertWalk, hg] at h
      cases h
      exact ⟨0, t, by simp, rfl, rfl, hg⟩
    | some pn =>
      simp only [insertWalk, hg] at h
      cases hwk : insertWalk pn.subs rest leaf node with
      | error e2 =>
        rw [hwk] at h
        cases h
        obtain ⟨j, t2, hj, hnav, hget, hnone⟩ := ih hwk
        refine ⟨j + 1, t2, by simpa using hj, ?_, hget, hnone⟩
        show navigate t (k :: rest.take j) = some t2
        simp only [navigate, hg]
        exact hnav
      | ok t3 =>
        rw [hwk] at h
        cases h

theorem insertWalk_ok_present {leaf : Str} {node : PNode} :
    ∀ {ks : List Str} {t t3 : Tree}, insertWalk t ks leaf node = .ok t3 →
      ∀ j, j < ks.length →
        ∃ t2, navigate t (ks.take j) = some t2 ∧ alGet t2 (ks.getD j []) ≠ none := by
  intro ks
  induction ks with
  | nil =>
    intro t t3 _ j hj
    simp at hj
  | cons k rest ih =>
    intro t t3 h j hj
    cases hg : alGet t k with
    | none =>
      simp only [insertWalk, hg] at h
      exact Except.noConfusion h
    | some pn =>
      simp only [insertWalk, hg] at h
      cases hwk : insertWalk pn.subs rest leaf node with
      | error e2 => rw [hwk] at h; cases h
      | ok subs2 =>
        cases j with
        | zero => exact ⟨t, rfl, by simp only [List.getD_cons_zero]; rw [hg]; simp⟩
        | succ j =>
          obtain ⟨t2, hnav, hne⟩ := ih hwk j (by simpa using hj)
          refine ⟨t2, ?_, by simpa using hne⟩
          show navigate t (k :: rest.take j) = some t2
          simp only [navigate, hg]
          exact hnav

theorem walkFits_range {ps : List Str} {s : Section}
    (hps : splitParts s.number = ps) (hwf : wfPartsB ps = true) :
    ∀ m i, 1 ≤ i → 1 ≤ m → i + m + 1 = ps.length →
      ∀ c : Str → Prop,
        WalkFits c ((List.range' i m).map
          (fun j => List.intercalate ['.'] (ps.take (j + 1)) ++ ['.'])) s.number := by
  intro m
  induction m with
  | zero => intro i _ h2 _ _; omega
  | succ m ih =>
    intro i hi _ hlen c
    show WalkFits _ ((List.intercalate ['.'] (ps.take (i + 1)) ++ ['.'])
      :: (List.range' (i + 1) m).map
          (fun j => List.intercalate ['.'] (ps.take (j + 1)) ++ ['.'])) s.number
    show WalkFits (fun k2 =>
      extendsOne (splitParts (List.intercalate ['.'] (ps.take (i + 1)) ++ ['.'])) k2) _ s.number
    have hsp : splitParts (List.intercalate ['.'] (ps.take (i + 1)) ++ ['.']) = ps.take (i + 1) :=
      splitParts_dotted (wfPartsB_take hwf (by omega))
    cases m with
    | zero =>
      show extendsOne (splitParts (List.intercalate ['.'] (ps.take (i + 1)) ++ ['.'])) s.number
      rw [hsp]
      constructor
      · rw [hps, List.length_take]
        omega
      · rw [hps, List.length_take]
        have h2 : min (i + 1) ps.length = i + 1 := by omega
        rw [h2]
    | succ m2 =>
      have hfit := ih (i + 1) (by omega) (by omega) (by omega)
        (fun k2 => extendsOne (splitParts (List.intercalate ['.'] (ps.take (i + 1)) ++ ['.'])) k2)
      exact hfit

theorem walkFits_parentKeys {ps : List Str} {s : Section}
    (hps : splitParts s.number = ps) (hwf : wfPartsB ps = true) (hlen : 2 < ps.length)
    (c : Str → Prop) : WalkFits c (parentKeys ps) s.number := by
  unfold parentKeys
  exact walkFits_range hps hwf (ps.length - 2) 1 le_rfl (by omega) (by omega) c

/-- Claim C2: for a section with more than two groups, `_insert_section`
walks the ancestor prefixes in turn.  If the walk fails, the tree is
returned unchanged (no placeholder is created) together with a warning
naming the first absent ancestor key and the dropped section; any absent
intermediate ancestor makes the walk fail.  If it succeeds, every walked
ancestor was present.  In both cases well-placedness (`RootOk`) is
preserved: the resulting tree never contains a node whose ancestor chain
is absent. -/
theorem c2_orphan_never_placeholder (root : Tree) (s : Section) (ps : List Str)
    (hps : splitParts s.number = ps) (hwf : wfPartsB ps = true) (hlen : 2 < ps.length)
    (hok : RootOk root) :
    (∀ w, (insertSection root s).2 = some w →
      (insertSection root s).1 = root ∧ w.orphan = s.number ∧
      ∃ j t2, j < (parentKeys ps).length ∧
        navigate root ((parentKeys ps).take j) = some t2 ∧
        (parentKeys ps).getD j [] = w.missing ∧ alGet t2 w.missing = none) ∧
    ((insertSection root s).2 = none →
      ∀ j, j < (parentKeys ps).length →
        ∃ t2, navigate root ((parentKeys ps).take j) = some t2 ∧
          alGet t2 ((parentKeys ps).getD j []) ≠ none) ∧
    RootOk (insertSection root s).1 := by
  subst hps
  have hne : ¬ (splitParts s.number).length = 2 := by omega
  cases hwalk : insertWalk root (parentKeys (splitParts s.number)) s.number (newNode s) with
  | error e =>
    have hres : insertSection root s = (root, some ⟨e, s.number⟩) := by
      unfold insertSection
      rw [if_neg hne, hwalk]
    rw [hres]
    refine ⟨?_, ?_, hok⟩
    · intro w hw
      injection hw with hw2
      subst hw2
      obtain ⟨j, t2, hj, hnav, hget, hnone⟩ := insertWalk_error_spec hwalk
      exact ⟨rfl, rfl, j, t2, hj, hnav, hget, hnone⟩
    · intro hcon
      exact absurd hcon (by simp)
  | ok t3 =>
    have hres : insertSection root s = (t3, none) := by
      unfold insertSection
      rw [if_neg hne, hwalk]
    rw [hres]
    refine ⟨?_, ?_, ?_⟩
    · intro w hw
      exact absurd hw (by simp)
    · intro _ j hj
      exact insertWalk_ok_present hwalk j hj
    · exact insertWalk_ok_treeOk (by rw [show (newNode s).subs = [] from rfl]; exact treeOk_nil _)
        hok (walkFits_parentKeys rfl hwf hlen rootCond) hwalk

/-- The orphaned section of the C2 witness: `9.2.3.` has ancestor `9.2.`,
absent from the empty tree. -/
def c2sec : Section :=
  { number := ['9', '.', '2', '.', '3', '.'], title := [], text := [], startPos := 0, endPos := 0 }

/-- Claim C2 witness: inserting `9.2.3.` into an empty tree drops it, warns
with missing ancestor `9.2.`, leaves the tree unchanged, and preserves
well-placedness. -/
theorem c2_orphan_never_placeholder_witness :
    (insertSection ([] : Tree) c2sec).1 = [] ∧
    (insertSection ([] : Tree) c2sec).2
      = some ⟨['9', '.', '2', '.'], ['9', '.', '2', '.', '3', '.']⟩ ∧
    RootOk (insertSection ([] : Tree) c2sec).1 := by
  have h := c2_orphan_never_placeholder [] c2sec [['9'], ['2'], ['3']]
    (by decide) (by decide) (by decide) (treeOk_nil _)
  have h2 : (insertSection ([] : Tree) c2sec).2
      = some ⟨['9', '.', '2', '.'], ['9', '.', '2', '.', '3', '.']⟩ := rfl
  exact ⟨(h.1 _ h2).1, h2, h.2.2⟩

/-!
Claim C6 — order and deduplication of `referenced_text`.
-/

/-- Concatenation of per-element token lists. -/
def flatMapL {α β : Type} (f : α → List β) : List α → List β
  | [] => []
  | a :: t => f a ++ flatMapL f t

/-- Fold of the seen-set guard over a token stream. -/
def dedupFold (acc : List Str) (xs : List Str) : List Str := xs.foldl pushTok acc

/-- First-occurrence deduplication of a token stream. -/
def dedupFirst (xs : List Str) : List Str := dedupFold [] xs

/-- The numbers claimed by the table pass, in discovery order. -/
def tableNumStream (text : Str) : List Str :=
  flatMapL (tableNumsOf text) (reFindIter tableRefRE text)

/-- The tokens emitted (pre-deduplication) by the table pass. -/
def tableTokStream (text : Str) : List Str :=
  flatMapL (fun m => (tableNumsOf text m).map fun tn => litTable ++ [' '] ++ tn)
    (reFindIter tableRefRE text)

/-- The tokens one labeled-reference match contributes: the lead number
(unless claimed by a table, which also suppresses the look-ahead), then the
unclaimed look-ahead numbers. -/
def labeledToksOf (text : Str) (tnums : List Str) (m : MatchSpan) : List Str :=
  let grp := capStr text m
  let tail := lookaheadSlice text m.mend
  let addToks := ((reFindIter additionalNumRE tail).map fun mm => normDot (capStr tail mm)).filter
    fun a => decide (a ∉ tnums)
  match reMatchStart additionalNumRE grp with
  | some lead =>
    let normalized := normDot (pySlice grp 0 lead.mend)
    if normalized ∈ tnums then [] else normalized :: addToks
  | none => addToks

/-- The tokens emitted (pre-deduplication) by the labeled pass. -/
def labeledTokStream (text : Str) (tnums : List Str) : List Str :=
  flatMapL (labeledToksOf text tnums) (reFindIter labeledRE text)

/-- The token one loose-reference match contributes. -/
def looseToksOf (text : Str) (tnums : List Str) (m : MatchSpan) : List Str :=
  let tkn := capStr text m
  if tkn = [] then []
  else if normDot tkn ∈ tnums then [] else [normDot tkn]

/-- The tokens emitted (pre-deduplication) by the loose pass. -/
def looseTokStream (text : Str) (tnums : List Str) : List Str :=
  flatMapL (looseToksOf text tnums) (reFindIter looseRE text)

/-- The full reference-token stream, in pass-priority order. -/
def refStream (text : Str) : List Str :=
  tableTokStream text ++ labeledTokStream text (tableNumStream text)
    ++ looseTokStream text (tableNumStream text)

theorem dedupFold_append (acc : List Str) (xs ys : List Str) :
    dedupFold acc (xs ++ ys) = dedupFold (dedupFold acc xs) ys := by
  simp [dedupFold, List.foldl_append]

theorem foldl_tableNums (mk : Str → Str) :
    ∀ (ns : List Str) (acc : List Str × List Str),
      ns.foldl (fun a tn => (pushTok a.1 (mk tn), a.2 ++ [tn])) acc
        = (dedupFold acc.1 (ns.map mk), acc.2 ++ ns) := by
  intro ns
  induction ns with
  | nil => intro acc; simp [dedupFold]
  | cons n rest ih =>
    intro acc
    rw [List.foldl_cons, ih]
    simp [dedupFold]

theorem refPass1_eq (text : Str) :
    refPass1 text = (dedupFirst (tableTokStream text), tableNumStream text) := by
  unfold refPass1 dedupFirst tableTokStream tableNumStream
  generalize reFindIter tableRefRE text = ms
  suffices hgen : ∀ (acc : List Str × List Str),
      ms.foldl (fun acc m => (tableNumsOf text m).foldl
        (fun acc2 tn => (pushTok acc2.1 (litTable ++ [' '] ++ tn), acc2.2 ++ [tn])) acc) acc
      = (dedupFold acc.1 (flatMapL (fun m => (tableNumsOf text m).map
            fun tn => litTable ++ [' '] ++ tn) ms),
         acc.2 ++ flatMapL (tableNumsOf text) ms) by
    rw [hgen ([], [])]
    rfl
  induction ms with
  | nil => intro acc; simp [flatMapL, dedupFold]
  | cons m rest ih =>
    intro acc
    simp only [flatMapL]
    rw [List.foldl_cons, foldl_tableNums, ih, dedupFold_append, List.append_assoc]

theorem foldl_guard_filter (tnums : List Str) :
    ∀ (xs : List Str) (f0 : List Str),
      xs.foldl (fun f a => if a ∈ tnums then f else pushTok f a) f0
        = dedupFold f0 (xs.filter fun a => decide (a ∉ tnums)) := by
  intro xs
  induction xs with
  | nil => intro f0; rfl
  | cons x rest ih =>
    intro f0
    rw [List.foldl_cons]
    by_cases hx : x ∈ tnums
    · rw [if_pos hx, ih]
      have : (List.filter (fun a => decide (a ∉ tnums)) (x :: rest))
          = List.filter (fun a => decide (a ∉ tnums)) rest := by
        simp [List.filter, hx]
      rw [this]
    · rw [if_neg hx, ih]
      have : (List.filter (fun a => decide (a ∉ tnums)) (x :: rest))
          = x :: List.filter (fun a => decide (a ∉ tnums)) rest := by
        simp [List.filter, hx]
      rw [this]
      rfl

theorem foldl_eq_dedup_flat {α : Type} (g : α → List Str) (step : List Str → α → List Str)
    (hstep : ∀ f m, step f m = dedupFold f (g m)) :
    ∀ (ms : List α) (f0 : List Str), ms.foldl step f0 = dedupFold f0 (flatMapL g ms) := by
  intro ms
  induction ms with
  | nil => intro f0; rfl
  | cons m rest ih =>
    intro f0
    rw [List.foldl_cons, hstep, ih, flatMapL, dedupFold_append]

theorem refPass2_eq (text : Str) (tnums : List Str) (found0 : List Str) :
    refPass2 text tnums found0 = dedupFold found0 (labeledTokStream text tnums) := by
  unfold refPass2 labeledTokStream
  apply foldl_eq_dedup_flat
  intro f m
  simp only [labeledToksOf]
  cases hm : reMatchStart additionalNumRE (capStr text m) with
  | none =>
    simp only [hm]
    rw [foldl_guard_filter]
  | some lead =>
    simp only [hm]
    by_cases hmem : normDot (pySlice (capStr text m) 0 lead.mend) ∈ tnums
    · rw [if_pos hmem, if_pos hmem]
      rfl
    · rw [if_neg hmem, if_neg hmem]
      rw [foldl_guard_filter]
      rfl

theorem refPass3_eq (text : Str) (tnums : List Str) (found0 : List Str) :
    refPass3 text tnums found0 = dedupFold found0 (looseTokStream text tnums) := by
  unfold refPass3 looseTokStream
  apply foldl_eq_dedup_flat
  intro f m
  unfold looseToksOf
  by_cases h1 : capStr text m = []
  · rw [if_pos h1, if_pos h1]
    rfl
  · rw [if_neg h1, if_neg h1]
    by_cases h2 : normDot (capStr text m) ∈ tnums
    · rw [if_pos h2, if_pos h2]
      rfl
    · rw [if_neg h2, if_neg h2]
      rfl

theorem pushTok_nodup {acc : List Str} (h : acc.Nodup) (tok : Str) : (pushTok acc tok).Nodup := by
  unfold pushTok
  split
  · exact h
  · next hmem =>
    rw [List.nodup_append]
    exact ⟨h, List.nodup_singleton _, by
      intro a ha hb
      simp only [List.mem_singleton] at hb
      subst hb
      exact hmem ha⟩

theorem dedupFold_nodup {acc : List Str} (h : acc.Nodup) :
    ∀ xs : List Str, (dedupFold acc xs).Nodup := by
  intro xs
  induction xs generalizing acc with
  | nil => exact h
  | cons x rest ih => exact ih (pushTok_nodup h x)

theorem mem_pushTok {acc : List Str} {tok x : Str} (h : x ∈ pushTok acc tok) :
    x ∈ acc ∨ x = tok := by
  unfold pushTok at h
  split at h
  · exact Or.inl h
  · rcases List.mem_append.mp h with h2 | h2
    · exact Or.inl h2
    · simp only [List.mem_singleton] at h2
      exact Or.inr h2

theorem mem_dedupFold {x : Str} :
    ∀ {xs acc : List Str}, x ∈ dedupFold acc xs → x ∈ acc ∨ x ∈ xs := by
  intro xs
  induction xs with
  | nil => intro acc h; exact Or.inl h
  | cons y rest ih =>
    intro acc h
    rcases ih h with h2 | h2
    · rcases mem_pushTok h2 with h3 | h3
      · exact Or.inl h3
      · exact Or.inr (by simp [h3])
    · exact Or.inr (List.mem_cons_of_mem y h2)

theorem normDot_ne_nil (s : Str) : normDot s ≠ [] := by
  unfold normDot
  split
  · next hl =>
    intro he
    subst he
    simp at hl
  · simp

theorem normDot_getLast (s : Str) : (normDot s).getLast? = some '.' := by
  unfold normDot
  split
  · assumption
  · rw [List.getLast?_append_of_ne_nil _ (by simp)]
    rfl

theorem mem_flatMapL {α β : Type} {f : α → List β} {x : β} :
    ∀ {l : List α}, x ∈ flatMapL f l → ∃ a ∈ l, x ∈ f a := by
  intro l
  induction l with
  | nil => intro h; exact absurd h (by simp [flatMapL])
  | cons a t ih =>
    intro h
    rcases List.mem_append.mp h with h2 | h2
    · exact ⟨a, List.mem_cons_self a t, h2⟩
    · obtain ⟨b, hb, hx⟩ := ih h2
      exact ⟨b, List.mem_cons_of_mem a hb, hx⟩

theorem mem_tableNumsOf_getLast {text : Str} {m : MatchSpan} {x : Str}
    (h : x ∈ tableNumsOf text m) : x.getLast? = some '.' ∧ x ≠ [] := by
  unfold tableNumsOf at h
  obtain ⟨mm, _, he⟩ := List.mem_map.mp h
  rw [← he]
  exact ⟨normDot_getLast _, normDot_ne_nil _⟩

theorem mem_tableTokStream_getLast {text : Str} {x : Str} (h : x ∈ tableTokStream text) :
    x.getLast? = some '.' := by
  unfold tableTokStream at h
  obtain ⟨m, _, hx⟩ := mem_flatMapL h
  obtain ⟨tn, htn, he⟩ := List.mem_map.mp hx
  have htn2 := mem_tableNumsOf_getLast htn
  rw [← he]
  rw [List.getLast?_append_of_ne_nil _ htn2.2]
  exact htn2.1

theorem mem_labeledToksOf_getLast {text : Str} {tnums : List Str} {m : MatchSpan} {x : Str}
    (h : x ∈ labeledToksOf text tnums m) : x.getLast? = some '.' := by
  simp only [labeledToksOf] at h
  cases hm : reMatchStart additionalNumRE (capStr text m) with
  | none =>
    rw [hm] at h
    simp only at h
    obtain ⟨hy, -⟩ := List.mem_filter.mp h
    obtain ⟨mm, _, he⟩ := List.mem_map.mp hy
    rw [← he]
    exact normDot_getLast _
  | some lead =>
    rw [hm] at h
    simp only at h
    split at h
    · exact absurd h (by simp)
    · rcases List.mem_cons.mp h with h3 | h3
      · rw [h3]
        exact normDot_getLast _
      · obtain ⟨hy, -⟩ := List.mem_filter.mp h3
        obtain ⟨mm, _, he⟩ := List.mem_map.mp hy
        rw [← he]
        exact normDot_getLast _

theorem mem_looseToksOf_getLast {text : Str} {tnums : List Str} {m : MatchSpan} {x : Str}
    (h : x ∈ looseToksOf text tnums m) : x.getLast? = some '.' := by
  simp only [looseToksOf] at h
  split at h
  · exact absurd h (by simp)
  · split at h
    · exact absurd h (by simp)
    · simp only [List.mem_singleton] at h
      rw [h]
      exact normDot_getLast _

theorem mem_refStream_getLast {text : Str} {x : Str} (h : x ∈ refStream text) :
    x.getLast? = some '.' := by
  unfold refStream at h
  rcases List.mem_append.mp h with h1 | h1
  · rcases List.mem_append.mp h1 with h2 | h2
    · exact mem_tableTokStream_getLast h2
    · obtain ⟨m, _, hx⟩ := mem_flatMapL h2
      exact mem_labeledToksOf_getLast hx
  · obtain ⟨m, _, hx⟩ := mem_flatMapL h1
    exact mem_looseToksOf_getLast hx

/-- Claim C6 (amended): `referenced_text` before the per-section filter is
the first-occurrence deduplication of the three passes' token streams in
pass-priority order (table, then labeled, then loose) — not in the order of
first occurrence in the prose; it is duplicate-free, and every token ends
with a trailing dot. -/
theorem c6_reference_order (text : Str) :
    extractReferences text = dedupFirst (refStream text) ∧
    (extractReferences text).Nodup ∧
    (∀ r ∈ extractReferences text, r.getLast? = some '.') := by
  have heq : extractReferences text = dedupFirst (refStream text) := by
    by_cases ht : text = []
    · subst ht
      rfl
    · unfold extractReferences
      rw [if_neg ht]
      show refPass3 text (refPass1 text).2
        (refPass2 text (refPass1 text).2 (refPass1 text).1) = _
      rw [refPass2_eq, refPass3_eq, refPass1_eq]
      unfold refStream dedupFirst
      rw [dedupFold_append, dedupFold_append]
  refine ⟨heq, ?_, ?_⟩
  · rw [heq]
    exact dedupFold_nodup List.nodup_nil _
  · intro r hr
    rw [heq] at hr
    rcases mem_dedupFold hr with h2 | h2
    · exact absurd h2 (by simp)
    · exact mem_refStream_getLast h2

/-- First-occurrence index of a token in a text (`str.find`). -/
def strFind? (needle : Str) : Str → Option Nat
  | [] => if needle.isEmpty then some 0 else none
  | c :: t =>
    if needle.isPrefixOf (c :: t) then some 0
    else (strFind? needle t).map (· + 1)

/-- The prose of the C6 counterexample: a loose reference occurring before a
labeled reference. -/
def c6text : Str :=
  ['(', 's', 'e', 'e', ' ', '9', '.', '2', '0', '.', ')', ' ', 'A', 'r', 't', 'i', 'c',
   'l', 'e', ' ', '9', '.', '3', '0', '.', '3', '0', '.']

def c6tokA : Str := ['9', '.', '3', '0', '.', '3', '0', '.']

def c6tokB : Str := ['9', '.', '2', '0', '.']

theorem c6_reference_order_witness :
    c6tokA ∈ extractReferences c6text ∧ c6tokA.getLast? = some '.' :=
  ⟨by decide, (c6_reference_order c6text).2.2 c6tokA (by decide)⟩

/-- Claim C6, counterexample: the claim says tokens appear in the order of
their first occurrence in the prose.  On `"(see 9.20.) Article 9.30.30."`
the loose reference `9.20.` occurs first (index 5) but is emitted second,
after the labeled `9.30.30.` (index 20), because the labeled pass runs
before the loose pass. -/
theorem c6_prose_order_counterexample :
    extractReferences c6text = [c6tokA, c6tokB] ∧
    strFind? c6tokB c6text = some 5 ∧
    strFind? c6tokA c6text = some 20 ∧
    (strFind? ((extractReferences c6text).getD 1 []) c6text).getD 0
      < (strFind? ((extractReferences c6text).getD 0 []) c6text).getD 0 := by
  refine ⟨by decide, by decide, by decide, by decide⟩

/-!
Claim C7: section spans.
-/

/-- `(pySlice s a b)[i]?` in terms of `s`. -/
theorem pySlice_getElem (s : Str) (a b i : Nat) :
    (pySlice s a b)[i]? = if a + i < b then s[a + i]? else none := by
  unfold pySlice
  rw [List.getElem?_drop, List.getElem?_take]

/-- If `rfind` reports no occurrence, there is none. -/
theorem pyRfindChar_none_spec (c : Char) :
    ∀ (s : Str), pyRfindChar c s = none → ∀ (j : Nat), s[j]? ≠ some c := by
  intro s
  induction s with
  | nil => intro _ j; simp
  | cons a t ih =>
    intro h j
    unfold pyRfindChar at h
    cases ht : pyRfindChar c t with
    | some k2 =>
      simp only [ht] at h
      exact Option.noConfusion h
    | none =>
      simp only [ht] at h
      by_cases hac : a = c
      · rw [if_pos hac] at h; exact Option.noConfusion h
      · rw [if_neg hac] at h
        cases j with
        | zero => simp [hac]
        | succ j2 =>
          simp only [List.getElem?_cons_succ]
          exact ih ht j2

/-- `rfind` returns the LAST occurrence. -/
theorem pyRfindChar_some_spec (c : Char) :
    ∀ (s : Str) (k : Nat), pyRfindChar c s = some k →
      s[k]? = some c ∧ ∀ (j : Nat), k < j → s[j]? ≠ some c := by
  intro s
  induction s with
  | nil => intro k h; exact Option.noConfusion h
  | cons a t ih =>
    intro k h
    unfold pyRfindChar at h
    cases ht : pyRfindChar c t with
    | some k2 =>
      simp only [ht] at h
      obtain rfl : k2 + 1 = k := Option.some.inj h
      have h2 := ih k2 ht
      refine ⟨by simpa using h2.1, ?_⟩
      intro j hj
      cases j with
      | zero => omega
      | succ j2 =>
        simp only [List.getElem?_cons_succ]
        exact h2.2 j2 (by omega)
    | none =>
      simp only [ht] at h
      by_cases hac : a = c
      · rw [if_pos hac] at h
        obtain rfl : (0 : Nat) = k := by
          exact Option.some.inj h
        refine ⟨by simp [hac], ?_⟩
        intro j hj
        cases j with
        | zero => omega
        | succ j2 =>
          simp only [List.getElem?_cons_succ]
          exact pyRfindChar_none_spec c t ht j2
      · rw [if_neg hac] at h; exact Option.noConfusion h

/-- If position `p` carries the last newline of the 200-character look-back
window before `ns`, the span end is exactly `p`. -/
theorem endPosFor_newline (text : Str) (ns p : Nat)
    (h1 : ns - 200 <= p) (h2 : p < ns) (h3 : text[p]? = some '\n')
    (h4 : forall q, p < q -> q < ns -> text[q]? ≠ some '\n') :
    endPosFor text ns = p := by
  unfold endPosFor
  cases hr : pyRfindChar '\n' (pySlice text (ns - 200) ns) with
  | none =>
    exfalso
    have hn := pyRfindChar_none_spec '\n' _ hr (p - (ns - 200))
    rw [pySlice_getElem, if_pos (by omega), Nat.add_sub_cancel' h1] at hn
    exact hn h3
  | some k =>
    simp only [hr]
    have hs := pyRfindChar_some_spec '\n' _ k hr
    have hk1 := hs.1
    rw [pySlice_getElem] at hk1
    by_cases hlt : (ns - 200) + k < ns
    · rw [if_pos hlt] at hk1
      rcases Nat.lt_trichotomy ((ns - 200) + k) p with hlt2 | heq | hgt
      · exfalso
        have hm := hs.2 (p - (ns - 200)) (by omega)
        rw [pySlice_getElem, if_pos (by omega), Nat.add_sub_cancel' h1] at hm
        exact hm h3
      · exact heq
      · exact absurd hk1 (h4 _ hgt hlt)
    · rw [if_neg hlt] at hk1
      exact Option.noConfusion hk1

/-- If the look-back window holds no newline, the span end is `ns` itself. -/
theorem endPosFor_no_newline (text : Str) (ns : Nat)
    (h : forall q, ns - 200 <= q -> q < ns -> text[q]? ≠ some '\n') :
    endPosFor text ns = ns := by
  unfold endPosFor
  cases hr : pyRfindChar '\n' (pySlice text (ns - 200) ns) with
  | none => simp only [hr]
  | some k =>
    exfalso
    have hk1 := (pyRfindChar_some_spec '\n' _ k hr).1
    rw [pySlice_getElem] at hk1
    by_cases hlt : ns - 200 + k < ns
    · rw [if_pos hlt] at hk1
      exact h _ (by omega) hlt hk1
    · rw [if_neg hlt] at hk1
      exact Option.noConfusion hk1

/-- `processSection` only rewrites the body-related fields. -/
theorem processSection_startPos (text : Str) (ns : Option Nat) (s : Section) :
    (processSection text ns s).startPos = s.startPos := by
  simp only [processSection]

/-- The span end that `processSection` assigns. -/
theorem processSection_endPos (text : Str) (ns : Option Nat) (s : Section) :
    (processSection text ns s).endPos =
      match ns with
      | some n => endPosFor text n
      | none => text.length := by
  simp only [processSection]

/-- The expected span end of a section given the (optional) current and next
section stubs: `endPosFor` at the next start, or the document length. -/
def expectedEnd (text : Str) (cur next : Option Section) : Option Nat :=
  match cur, next with
  | none, _ => none
  | some _, some s2 => some (endPosFor text s2.startPos)
  | some _, none => some text.length

theorem extractContent_length (text : Str) :
    ∀ l : List Section, (extractContent text l).length = l.length := by
  intro l
  induction l with
  | nil => rfl
  | cons s rest ih => simp [extractContent, ih]

theorem extractContent_get (text : Str) :
    ∀ (l : List Section) (i : Nat),
      ((extractContent text l).get? i).map Section.startPos
          = (l.get? i).map Section.startPos
      ∧ ((extractContent text l).get? i).map Section.endPos
          = expectedEnd text (l.get? i) (l.get? (i + 1)) := by
  intro l
  induction l with
  | nil => intro i; simp [extractContent, expectedEnd]
  | cons s rest ih =>
    intro i
    cases i with
    | zero =>
      cases rest with
      | nil =>
        constructor
        · simp [extractContent, processSection_startPos]
        · simp [extractContent, processSection_endPos, expectedEnd]
      | cons s2 t =>
        constructor
        · simp [extractContent, processSection_startPos]
        · simp [extractContent, processSection_endPos, expectedEnd]
    | succ i2 =>
      simp only [extractContent, List.get?_cons_succ]
      exact ih i2

theorem mem_insSorted {x y : RawHdr} :
    ∀ {l : List RawHdr}, x ∈ insSorted y l → x = y ∨ x ∈ l := by
  intro l
  induction l with
  | nil =>
    intro h
    simp only [insSorted, List.mem_singleton] at h
    exact Or.inl h
  | cons z t ih =>
    intro h
    unfold insSorted at h
    split at h
    · rcases List.mem_cons.mp h with h1 | h1
      · exact Or.inr (h1 ▸ List.mem_cons_self z t)
      · rcases ih h1 with h2 | h2
        · exact Or.inl h2
        · exact Or.inr (List.mem_cons_of_mem z h2)
    · rcases List.mem_cons.mp h with h1 | h1
      · exact Or.inl h1
      · exact Or.inr h1

theorem mem_sortByStart {x : RawHdr} {l : List RawHdr}
    (h : x ∈ sortByStart l) : x ∈ l := by
  unfold sortByStart at h
  have H : ∀ (l2 acc : List RawHdr),
      x ∈ l2.foldl (fun a b => insSorted b a) acc → x ∈ acc ∨ x ∈ l2 := by
    intro l2
    induction l2 with
    | nil => intro acc h2; exact Or.inl h2
    | cons z t ih =>
      intro acc h2
      rw [List.foldl_cons] at h2
      rcases ih _ h2 with h3 | h3
      · rcases mem_insSorted h3 with h4 | h4
        · exact Or.inr (h4 ▸ List.mem_cons_self z t)
        · exact Or.inl h4
      · exact Or.inr (List.mem_cons_of_mem z h3)
  rcases H l [] h with h1 | h1
  · exact absurd h1 (List.not_mem_nil x)
  · exact h1

/-- Every extracted stub starts at the END of its own header-regex match. -/
theorem extractSections_startPos (text : Str) :
    ∀ st ∈ extractSections text,
      ∃ m ∈ reFindIter headerRE text, st.startPos = m.mend := by
  intro st hst
  simp only [extractSections] at hst
  obtain ⟨rh, hrh, he⟩ := List.mem_map.mp hst
  have hrh2 := mem_sortByStart hrh
  obtain ⟨hrh3, -⟩ := List.mem_filter.mp hrh2
  obtain ⟨m, hm, hfm⟩ := List.mem_filterMap.mp hrh3
  refine ⟨m, hm, ?_⟩
  split at hfm
  · exact Option.noConfusion hfm
  · have h9 := Option.some.inj hfm
    subst h9
    rw [← he]

/-- Claim C7: for every section except the last, `end_pos` is obtained from the
next section's header-match start by backing up to the nearest preceding
newline inside a 200-character window (`endPosFor`); for the last section
`end_pos` is the document length; `start_pos` is the end of the section's own
header match; and `endPosFor` is characterised by the last newline of the
window (or its absence). -/
theorem c7_section_spans (text : Str) :
    (extractContent text (extractSections text)).length
        = (extractSections text).length
    ∧ (∀ i, ((extractContent text (extractSections text)).get? i).map
          Section.startPos = ((extractSections text).get? i).map Section.startPos)
    ∧ (∀ i, ((extractContent text (extractSections text)).get? i).map
          Section.endPos
        = expectedEnd text ((extractSections text).get? i)
            ((extractSections text).get? (i + 1)))
    ∧ (∀ st ∈ extractSections text,
        ∃ m ∈ reFindIter headerRE text, st.startPos = m.mend)
    ∧ (∀ ns p, ns - 200 ≤ p → p < ns → text[p]? = some '\n' →
        (∀ q, p < q → q < ns → text[q]? ≠ some '\n') → endPosFor text ns = p)
    ∧ (∀ ns, (∀ q, ns - 200 ≤ q → q < ns → text[q]? ≠ some '\n') →
        endPosFor text ns = ns) :=
  ⟨extractContent_length text _,
   fun i => (extractContent_get text _ i).1,
   fun i => (extractContent_get text _ i).2,
   extractSections_startPos text,
   endPosFor_newline text,
   endPosFor_no_newline text⟩

/-- The two-section document of the C7 witness. -/
def c7doc : Str :=
  ['#', '#', ' ', '9', '.', '1', '.', ' ', 'G', 'e', 'n', 'e', 'r', 'a', 'l',
   '\n', 'b', 'o', 'd', 'y', ' ', 't', 'e', 'x', 't', ' ', 'h', 'e', 'r', 'e',
   '\n', '#', '#', ' ', '9', '.', '2', '.', ' ', 'N', 'e', 'x', 't', '\n',
   'm', 'o', 'r', 'e', '\n']

/-- The first stub extracted from `c7doc`. -/
def c7sec0 : Section :=
  { number := ['9', '.', '1', '.'], title := ['G', 'e', 'n', 'e', 'r', 'a', 'l'],
    text := [], startPos := 15, endPos := 0 }

theorem c7_section_spans_witness :
    endPosFor c7doc 43 = 30
    ∧ endPosFor c7doc 10 = 10
    ∧ (∃ m ∈ reFindIter headerRE c7doc, c7sec0.startPos = m.mend) :=
  ⟨(c7_section_spans c7doc).2.2.2.2.1 43 30 (by decide) (by decide) (by decide)
      (fun q hq1 hq2 =>
        (by decide : ∀ q2 < 43, 30 < q2 → c7doc[q2]? ≠ some '\n') q hq2 hq1),
   (c7_section_spans c7doc).2.2.2.2.2 10
      (fun q hq1 hq2 =>
        (by decide : ∀ q2 < 10, c7doc[q2]? ≠ some '\n') q hq2),
   (c7_section_spans c7doc).2.2.2.1 c7sec0 (by decide)⟩

end BC
